import Mathlib

/-!
# http_filesystem.go: a static file server wired from library parts

The program is one function, `main`: it declares two string flags with
`pflag.String`, calls `pflag.Parse`, prints one info line with `logoru.Info`,
registers `handlers.CombinedLoggingHandler(os.Stdout, http.FileServer(http.Dir(dir)))`
for the pattern "/" and calls `http.ListenAndServe(":"+port, nil)`, whose result it
discards.

`main` is embedded as a function from the process arguments and the behaviour of the
operating system (does the listen call return, what does the file system hold) to the
sequence of library calls it makes and the way the process ends.  The library routines
that `main` calls are embedded next to it, each under the name it has in its package:
`pflag` (flag parsing), `path` (lexical path cleaning), `http` (file handler and
serve mux) and `handlers` (access log middleware).

Go strings are byte sequences.  Every byte the embedded code inspects is ASCII
('-', '=', '/', '.', 'h'), so indexing by character agrees with indexing by byte.
-/

namespace HttpFilesystem

/-! ## pflag: flag sets of string flags without shorthand letters -/

namespace pflag

/-- The errors `parseArgs` can produce. -/
inductive ParseError where
  /-- "bad flag syntax: %s" -/
  | badFlag (s : String)
  /-- "unknown flag: --%s" -/
  | unknownFlag (name : String)
  /-- "flag needs an argument: %s" -/
  | needsArgument (s : String)
  /-- "unknown shorthand flag: %q in -%s" -/
  | unknownShorthand (c : Char) (shorthands : String)
  /-- ErrHelp, "pflag: help requested" -/
  | ErrHelp
  deriving DecidableEq, Repr

/-- A flag set.  `formal` maps each defined flag name to its current value (all flags of
this program are string flags, whose `Set` stores the text unchanged and cannot fail);
`args` holds the non-flag arguments.  No flag of this program has a shorthand letter, so
the shorthand table of the flag set is empty and is not represented. -/
structure FlagSet where
  formal : List (String × String)
  args : List String
  deriving DecidableEq, Repr

/-- An empty flag set, `NewFlagSet`. -/
def NewFlagSet : FlagSet := ⟨[], []⟩

/-- Defines a string flag with the given name and default value (`String` of pflag, a
name Lean keeps for its own string type; the
usage text plays no part in parsing).  The Go function returns a pointer to the flag's
value; here the flag is read back by name with `FlagSet.value`. -/
def FlagSet.defineString (f : FlagSet) (name value : String) : FlagSet :=
  { f with formal := f.formal ++ [(name, value)] }

/-- Looks a flag up by name in `formal`. -/
def FlagSet.lookup (f : FlagSet) (name : String) : Option String :=
  f.formal.lookup name

/-- What a pointer returned by `pflag.String` holds: the flag's current value. -/
def FlagSet.value (f : FlagSet) (name : String) : String :=
  (f.lookup name).getD ""

/-- Stores `value` in the flag `name` (`FlagSet.Set` for a string flag). -/
def FlagSet.Set (f : FlagSet) (name value : String) : FlagSet :=
  { f with formal := f.formal.map fun e => if e.1 = name then (e.1, value) else e }

/-- The two pieces of `strings.SplitN(name, "=", 2)`: the text before the first '=' and,
when there is a '=', the text after it. -/
def splitN2 (name : List Char) : List Char × Option (List Char) :=
  match name.span fun c => c != '=' with
  | (a, []) => (a, none)
  | (a, _ :: b) => (a, some b)

/-- One long argument `s` (it starts with "--" and is longer than that), `next` being the
argument after it, if any.  Returns the new flag set and whether `next` was consumed as
the flag's value (the Go function returns the remaining arguments instead). -/
def FlagSet.parseLongArg (f : FlagSet) (s : String) (next : Option String) :
    Except ParseError (FlagSet × Bool) :=
  let name := s.data.drop 2
  if name.length == 0 || name.head? == some '-' || name.head? == some '=' then
    .error (.badFlag s)
  else
    let split := splitN2 name
    let name : String := ⟨split.1⟩
    match f.lookup name with
    | none =>
      if name = "help" then .error .ErrHelp
      else .error (.unknownFlag name)
    | some _ =>
      match split.2, next with
      | some value, _ => .ok (f.Set name ⟨value⟩, false)
      | none, some value => .ok (f.Set name value, true)
      | none, none => .error (.needsArgument s)

/-- One short argument `s` (it starts with '-', its second character is not '-').  With
an empty shorthand table `parseSingleShortArg` either skips an argument that begins
"-test." or fails on the first letter: with `ErrHelp` for 'h', else as an unknown
shorthand.  The loop of `parseShortArg` therefore runs once. -/
def FlagSet.parseShortArg (f : FlagSet) (s : String) : Except ParseError FlagSet :=
  let shorthands := s.data.drop 1
  if "test.".data.isPrefixOf shorthands then .ok f
  else
    match shorthands with
    | [] => .ok f
    | c :: _ =>
      if c = 'h' then .error .ErrHelp
      else .error (.unknownShorthand c ⟨shorthands⟩)

/-- The argument loop.  A word that is empty, does not start with '-' or is "-" alone is a
non-flag argument and parsing goes on after it (flags and words may be interspersed);
"--" ends flag parsing and the rest is non-flag arguments. -/
def FlagSet.parseArgs : FlagSet → List String → Except ParseError FlagSet
  | f, [] => .ok f
  | f, s :: args =>
    if s.length == 0 || s.data.head? != some '-' || s.length == 1 then
      parseArgs { f with args := f.args ++ [s] } args
    else if s.data.get? 1 == some '-' then
      if s.length == 2 then
        .ok { f with args := f.args ++ args }
      else
        match f.parseLongArg s args.head?, args with
        | .error e, _ => .error e
        | .ok (g, true), _ :: rest => parseArgs g rest
        | .ok (g, _), a => parseArgs g a
    else
      match f.parseShortArg s with
      | .error e => .error e
      | .ok g => parseArgs g args

/-- Parses the argument list (the process arguments without the program name). -/
def FlagSet.Parse (f : FlagSet) (arguments : List String) : Except ParseError FlagSet :=
  { f with args := [] }.parseArgs arguments

end pflag

/-! ## The program -/

/-- The streams a log writer can be. -/
inductive Writer where
  | Stdout
  | Stderr
  deriving DecidableEq, Repr

/-- The handler values `main` builds. -/
inductive Handler where
  /-- `http.FileServer(http.Dir(root))` -/
  | FileServer (root : String)
  /-- `handlers.CombinedLoggingHandler(out, h)` -/
  | CombinedLoggingHandler (out : Writer) (h : Handler)
  deriving DecidableEq, Repr

/-- The calls with an effect outside the process that a run of `main` makes, in order. -/
inductive Event where
  /-- pflag reports a parse error: the error text and the usage text go to standard
  error (`failf`) and the error text is printed once more by `Parse`. -/
  | usageError (err : pflag.ParseError)
  /-- pflag prints the usage text alone, on a request for help. -/
  | usage
  /-- `logoru.Info(a...)` -/
  | Info (a : List String)
  /-- `http.Handle(pattern, handler)`: a registration in the default serve mux. -/
  | Handle (pattern : String) (handler : Handler)
  /-- `http.ListenAndServe(addr, handler)`; `none` is the nil handler, which selects
  the default serve mux. -/
  | ListenAndServe (addr : String) (handler : Option Handler)
  deriving DecidableEq, Repr

/-- How a run ends. -/
inductive Outcome where
  /-- The process has exited with this status. -/
  | exit (code : Nat)
  /-- `ErrHelp`: the usage text was printed and `Parse` exits the process; the status it
  exits with differs between pflag releases. -/
  | helpExit
  /-- `ListenAndServe` is serving and does not return; the process lives until it is
  killed from outside. -/
  | serving
  deriving DecidableEq, Repr

/-- The part of the operating system a run of `main` depends on: for each listen address,
`some err` when `http.ListenAndServe` returns the error `err`, as it does when the bind
fails, and `none` when it binds and goes on serving. -/
structure World where
  listenAndServe : String → Option String

/-- A run: the calls made and how the process ended. -/
structure Run where
  events : List Event
  outcome : Outcome
  deriving DecidableEq, Repr

/-- The flag set after the two `pflag.String` declarations of `main`, on the
`CommandLine` flag set, whose error handling is `ExitOnError`. -/
def CommandLine : pflag.FlagSet :=
  (pflag.NewFlagSet.defineString "webserverPort" "8080").defineString "webserverDirectory" "."

/-- The function `main`, given the process arguments after the program name.
`pflag.Parse` exits with status 2 on a parse error.  The value `ListenAndServe` returns
is not bound to anything: when it returns, `main` returns, and a Go program whose `main`
returns exits with status 0. -/
def main (w : World) (args : List String) : Run :=
  match CommandLine.Parse args with
  | .error .ErrHelp => ⟨[.usage], .helpExit⟩
  | .error e => ⟨[.usageError e], .exit 2⟩
  | .ok f =>
    let webserverPort := f.value "webserverPort"
    let webserverDirectory := f.value "webserverDirectory"
    let events := [
      Event.Info ["Go Webserver listening on tcp port", webserverPort],
      Event.Handle "/" (.CombinedLoggingHandler .Stdout (.FileServer webserverDirectory)),
      Event.ListenAndServe (":" ++ webserverPort) none]
    match w.listenAndServe (":" ++ webserverPort) with
    | some _ => ⟨events, .exit 0⟩
    | none => ⟨events, .serving⟩

/-- The Configuration Loader: the values the two flag pointers of `main` hold after
`pflag.Parse`, port first, or the parse error. -/
def configOf (args : List String) : Except pflag.ParseError (String × String) :=
  (CommandLine.Parse args).map fun f =>
    (f.value "webserverPort", f.value "webserverDirectory")

/-! ## path: lexical cleaning -/

namespace path

/-- The ".." step of `Clean` on the output buffer, which is held as a stack: the head of
the list is the byte written last.  `out.w--`, then `out.w--` again for as long as
`out.w > dotdot` and the byte at `out.w` (the byte dropped last) is not '/'. -/
def backtrack : List Char → Nat → List Char
  | [], _ => []
  | c :: out, dotdot => if out.length > dotdot && c != '/' then backtrack out dotdot else out

/-- The loop `for r < n` of `Clean`.  The list is the unread part `path[r:]`; `out` is
the content `buf[:w]` of the lazily allocated output buffer, as a stack (its length is
`out.w`).  Each turn reads at least one byte, so `fuel` turns are enough for an input of
`fuel` bytes; `none` is fuel run out. -/
def cleanLoop (rooted : Bool) : Nat → List Char → List Char → Nat → Option (List Char × Nat)
  | _, [], out, dotdot => some (out, dotdot)
  | 0, _ :: _, _, _ => none
  | fuel + 1, c :: tl, out, dotdot =>
    if c == '/' then
      -- empty path element
      cleanLoop rooted fuel tl out dotdot
    else if c == '.' && (tl.isEmpty || tl.head? == some '/') then
      -- . element
      cleanLoop rooted fuel tl out dotdot
    else if c == '.' && tl.head? == some '.' &&
        (tl.tail.isEmpty || tl.tail.head? == some '/') then
      -- .. element: remove to last /
      if out.length > dotdot then
        cleanLoop rooted fuel tl.tail (backtrack out dotdot) dotdot
      else if !rooted then
        let out := '.' :: '.' :: (if out.length > 0 then '/' :: out else out)
        cleanLoop rooted fuel tl.tail out out.length
      else
        cleanLoop rooted fuel tl.tail out dotdot
    else
      -- real path element: add slash if needed, copy element
      let out := if rooted && out.length != 1 || !rooted && out.length != 0 then '/' :: out
        else out
      cleanLoop rooted fuel (tl.dropWhile fun b => b != '/')
        ((tl.takeWhile fun b => b != '/').reverse ++ c :: out) dotdot

/-- `Clean` on the bytes of a path. -/
def cleanChars (path : List Char) : List Char :=
  match path with
  | [] => ['.']
  | c :: tl =>
    let rooted := c == '/'
    match (if rooted then cleanLoop rooted tl.length tl ['/'] 1
      else cleanLoop rooted (c :: tl).length (c :: tl) [] 0) with
    | some (out, _) => if out.length == 0 then ['.'] else out.reverse
    | none => path

/-- The shortest path name equivalent to `path` by purely lexical processing. -/
def Clean (path : String) : String := ⟨cleanChars path.data⟩

/-- The last element of `path`, trailing slashes removed. -/
def Base (path : String) : String :=
  if path.data.isEmpty then "."
  else
    let stripped := path.data.reverse.dropWhile fun b => b == '/'
    let last := (stripped.takeWhile fun b => b != '/').reverse
    if last.isEmpty then "/" else ⟨last⟩

/-- The loop run with fuel for every byte of its input. -/
def cleanRun (rooted : Bool) (rest out : List Char) (dotdot : Nat) : Option (List Char × Nat) :=
  cleanLoop rooted rest.length rest out dotdot

/-- A path segment that names a directory entry: not empty, without '/', neither "." nor
"..". -/
def plain (e : List Char) : Bool :=
  !e.isEmpty && !e.contains '/' && e != ['.'] && e != ['.', '.']

/-- The text "/e1/e2/.../en" of a list of segments. -/
def slashed (segs : List (List Char)) : List Char :=
  (segs.map fun e => '/' :: e).flatten

/-- The rooted path with the given segments: "/" when there are none. -/
def rootedOf (segs : List (List Char)) : List Char :=
  if segs.isEmpty then ['/'] else slashed segs

/-- The output buffer (a stack) that holds the rooted path whose segments, last one
first, are `segs`. -/
def stack : List (List Char) → List Char
  | [] => ['/']
  | e :: es => e.reverse ++ (if es.isEmpty then ['/'] else '/' :: stack es)

/-- The buffer after the loop has copied the element `e` onto `out`. -/
def push (rooted : Bool) (out e : List Char) : List Char :=
  e.reverse ++ (if rooted && out.length != 1 || !rooted && out.length != 0 then '/' :: out
    else out)

/-- The name `full` is `base` itself or is reached from `base` through plain segments:
`base` followed by "/e1/.../en", where a `base` "/" does not double its slash and a
`base` "." is left out. -/
def Under (base full : List Char) : Prop :=
  ∃ segs : List (List Char), (∀ e ∈ segs, plain e = true) ∧
    (full = base ++ slashed segs ∨
      (segs ≠ [] ∧ base = ['/'] ∧ full = slashed segs) ∨
      (segs ≠ [] ∧ base = ['.'] ∧ full = (slashed segs).tail))

end path

/-! ## path/filepath -/

namespace filepath

/-- `Join(dir, name)` for a `dir` that is not empty, on a system whose separator is '/',
where `filepath.Clean` is `path.Clean`: the cleaned `dir + "/" + name`. -/
def Join (dir name : String) : String :=
  path.Clean (dir ++ "/" ++ name)

end filepath

/-! ## net/http: response writers, the file handler, the serve mux -/

/-- A request, as far as the handlers of this program look at it: the method, `URL.Path`
and `URL.RawQuery`. -/
structure Request where
  Method : String
  Path : String
  RawQuery : String
  deriving DecidableEq, Repr

namespace http

/-- The interface `http.ResponseWriter` as a state machine: the header map (read, set,
delete), `WriteHeader`, and `Write`, which returns the number of bytes written and whether
it returned an error.  `ReadFrom` is the optional `io.ReaderFrom` of the writer: `none`
when the writer does not have it. -/
structure ResponseWriter where
  σ : Type
  HeaderGet : String → σ → Option String
  HeaderSet : String → String → σ → σ
  HeaderDel : String → σ → σ
  WriteHeader : Nat → σ → σ
  Write : String → σ → σ × Nat × Bool
  ReadFrom : Option (String → σ → σ × Nat × Bool)

/-- `io.Copy(w, src)`, which `io.CopyN` calls: through `ReadFrom` when the writer has it,
else with `Write`. -/
def ResponseWriter.Copy (rw : ResponseWriter) (src : String) (s : rw.σ) : rw.σ × Nat × Bool :=
  match rw.ReadFrom with
  | some readFrom => readFrom src s
  | none => rw.Write src s

/-- What a handler does with the response writer it is given: a tree of calls, each
continuing with what the call returned. -/
inductive Prog where
  | done
  | HeaderGet (key : String) (next : Option String → Prog)
  | HeaderSet (key value : String) (next : Prog)
  | HeaderDel (key : String) (next : Prog)
  | WriteHeader (statusCode : Nat) (next : Prog)
  | Write (b : String) (next : Nat → Bool → Prog)
  | Copy (src : String) (next : Nat → Bool → Prog)

/-- Runs the calls of a handler on a response writer. -/
def Prog.run (rw : ResponseWriter) : Prog → rw.σ → rw.σ
  | .done, s => s
  | .HeaderGet key next, s => (next (rw.HeaderGet key s)).run rw s
  | .HeaderSet key value next, s => next.run rw (rw.HeaderSet key value s)
  | .HeaderDel key next, s => next.run rw (rw.HeaderDel key s)
  | .WriteHeader statusCode next, s => next.run rw (rw.WriteHeader statusCode s)
  | .Write b next, s =>
    let r := rw.Write b s
    (next r.2.1 r.2.2).run rw r.1
  | .Copy src next, s =>
    let r := rw.Copy src s
    (next r.2.1 r.2.2).run rw r.1

/-- The errors of opening a file that `toHTTPError` tells apart. -/
inductive FsError where
  | ErrNotExist
  | ErrPermission
  | other
  deriving DecidableEq, Repr

/-- An open file: the name it was opened under, whether `Stat` says it is a directory,
and the bytes of a regular file. -/
structure File where
  Name : String
  IsDir : Bool
  Data : String
  deriving DecidableEq, Repr

/-- The replies of the file handler, by the calls they make on the response writer. -/
inductive Reply where
  /-- `localRedirect`: the Location header and status 301, no body. -/
  | Redirect (location : String)
  /-- `Error(w, error, code)`: two header fields, the status, the message as body. -/
  | Error (error : String) (code : Nat)
  /-- Header fields and a status without a body (not modified, precondition failed). -/
  | Status (header : List (String × String)) (code : Nat)
  /-- The content of a file: header fields, the status, then `io.CopyN(w, content, n)`. -/
  | Content (header : List (String × String)) (code : Nat) (content : String)
  /-- A directory listing: header fields, then the body written with `Fprintf`, which
  makes the status 200. -/
  | Listing (header : List (String × String)) (body : String)
  deriving DecidableEq, Repr

end http

/-- The operating system and the parts of net/http that run on an already open file, as
a handler sees them.  `Open` is `os.Open` on a full name followed by `Stat`, its error
mapped by `mapOpenError`; `serveContent` and `dirList` are the replies that `serveContent`
and the directory branch of `serveFile` give for a request and an open file. -/
structure Files where
  Open : String → Except http.FsError http.File
  serveContent : Request → http.File → http.Reply
  dirList : Request → http.File → http.Reply

namespace http

/-- The recorder of net/http/httptest: a response writer that keeps what a handler
sent. -/
structure ResponseRecorder where
  Code : Nat
  HeaderMap : List (String × String)
  Body : String
  wroteHeader : Bool
  deriving DecidableEq, Repr

/-- A fresh recorder: code 200, nothing written. -/
def NewRecorder : ResponseRecorder := ⟨200, [], "", false⟩

/-- `WriteHeader` of the recorder: the first call fixes the code, later calls are
ignored. -/
def ResponseRecorder.WriteHeader (code : Nat) (rw : ResponseRecorder) : ResponseRecorder :=
  if rw.wroteHeader then rw else { rw with Code := code, wroteHeader := true }

/-- `Write` of the recorder: writes the header with code 200 if none was written, then
appends to the body. -/
def ResponseRecorder.Write (b : String) (rw : ResponseRecorder) : ResponseRecorder :=
  let rw := rw.WriteHeader 200
  { rw with Body := rw.Body ++ b }

/-- The recorder as a response writer; it has no `ReadFrom`. -/
abbrev Recorder : ResponseWriter where
  σ := ResponseRecorder
  HeaderGet key rw := rw.HeaderMap.lookup key
  HeaderSet key value rw :=
    { rw with HeaderMap := (key, value) :: rw.HeaderMap.filter fun e => e.1 != key }
  HeaderDel key rw := { rw with HeaderMap := rw.HeaderMap.filter fun e => e.1 != key }
  WriteHeader code rw := rw.WriteHeader code
  Write b rw := (rw.Write b, b.utf8ByteSize, false)
  ReadFrom := none

/-- The response writer the server hands to a handler (`*response` in net/http), as far
as the status, header and body it sends: the state of the recorder, and besides `Write` a
`ReadFrom`, which sends the bytes it is given as `Write` does. -/
abbrev response : ResponseWriter :=
  { Recorder with
    ReadFrom := some fun (src : String) (rw : ResponseRecorder) =>
      (rw.Write src, src.utf8ByteSize, false) }

/-- `Error`: replies with the message and the code. -/
def Error (error : String) (code : Nat) : Prog :=
  .HeaderSet "Content-Type" "text/plain; charset=utf-8" <|
  .HeaderSet "X-Content-Type-Options" "nosniff" <|
  .WriteHeader code <|
  .Write (error ++ "\n") fun _ _ => .done

/-- Sets header fields, then goes on. -/
def setHeader : List (String × String) → Prog → Prog
  | [], next => next
  | (key, value) :: header, next => .HeaderSet key value (setHeader header next)

/-- The calls of a reply on the response writer. -/
def Reply.prog : Reply → Prog
  | .Redirect location => .HeaderSet "Location" location <| .WriteHeader 301 .done
  | .Error error code => http.Error error code
  | .Status header code => setHeader header <| .WriteHeader code .done
  | .Content header code content =>
    setHeader header <| .WriteHeader code <| .Copy content fun _ _ => .done
  | .Listing header body => setHeader header <| .Write body fun _ _ => .done

/-- Maps an open error to a message and a status. -/
def toHTTPError : FsError → String × Nat
  | .ErrNotExist => ("404 page not found", 404)
  | .ErrPermission => ("403 Forbidden", 403)
  | .other => ("500 Internal Server Error", 500)

/-- A redirect to a path relative to the request path, keeping the query. -/
def localRedirect (r : Request) (newPath : String) : Reply :=
  .Redirect (if r.RawQuery != "" then newPath ++ "?" ++ r.RawQuery else newPath)

/-- The full name `Dir(d).Open(name)` hands to `os.Open`, on a system whose separator is
'/'. -/
def Dir.fullName (d : String) (name : String) : String :=
  let dir := if d == "" then "." else d
  filepath.Join dir (path.Clean ("/" ++ name))

/-- What serving one request did: the full names it opened, in order, and its reply. -/
structure Served where
  opened : List String
  reply : Reply
  deriving DecidableEq, Repr

/-- `strings.TrimSuffix(name, "/")`. -/
def trimSlash (name : String) : String :=
  if name.data.getLast? == some '/' then ⟨name.data.dropLast⟩ else name

/-- `serveFile(w, r, fs, name, redirect)` for `fs = Dir(root)`. -/
def serveFile (w : Files) (r : Request) (root : String) (name : String) (redirect : Bool) :
    Served :=
  -- redirect .../index.html to .../
  if "/index.html".data.isSuffixOf r.Path.data then ⟨[], localRedirect r "./"⟩
  else
    let full := Dir.fullName root name
    match w.Open full with
    | .error err => ⟨[full], .Error (toHTTPError err).1 (toHTTPError err).2⟩
    | .ok d =>
      -- redirect to canonical path: / at end of directory url
      if redirect && d.IsDir && r.Path.data.getLast? != some '/' then
        ⟨[full], localRedirect r (path.Base r.Path ++ "/")⟩
      else if redirect && !d.IsDir && r.Path.data.getLast? == some '/' then
        ⟨[full], localRedirect r ("../" ++ path.Base r.Path)⟩
      else if d.IsDir then
        if r.Path.data.getLast? != some '/' then
          ⟨[full], localRedirect r (path.Base r.Path ++ "/")⟩
        else
          -- use contents of index.html for directory, if present
          let index := Dir.fullName root (trimSlash name ++ "/index.html")
          match w.Open index with
          | .ok dd =>
            if dd.IsDir then ⟨[full, index], w.dirList r dd⟩
            else ⟨[full, index], w.serveContent r dd⟩
          | .error _ => ⟨[full, index], w.dirList r d⟩
      else ⟨[full], w.serveContent r d⟩

/-- The request path as `ServeHTTP` of the file handler takes it: with a leading '/'. -/
def fileHandler.upath (r : Request) : String :=
  if r.Path.data.head? == some '/' then r.Path else "/" ++ r.Path

/-- `ServeHTTP` of the handler `FileServer(Dir(root))`. -/
def fileHandler.ServeHTTP (w : Files) (root : String) (r : Request) : Served :=
  let upath := fileHandler.upath r
  let r := { r with Path := upath }
  serveFile w r root (path.Clean upath) true

end http

/-! ## gorilla/handlers: the logging handler -/

namespace handlers

/-- What the log formatter is given: the request, and the status and size the response
logger recorded. -/
structure LogFormatterParams where
  Request : Request
  StatusCode : Nat
  Size : Nat
  deriving DecidableEq, Repr

/-- The state of `responseLogger`: the wrapped writer, the status and the size. -/
structure responseLogger (σ : Type) where
  w : σ
  status : Nat
  size : Nat

/-- The writer `makeLogger` hands to the inner handler.  It hooks `Write` and
`WriteHeader` of the wrapped writer: both go to the wrapped writer and are recorded.  The
header map is the wrapped writer's.  `ReadFrom` is not hooked: the writer has it exactly
when the wrapped writer has it and passes it on, so the bytes sent through it are not
added to the size. -/
def makeLogger (rw : http.ResponseWriter) : http.ResponseWriter where
  σ := responseLogger rw.σ
  HeaderGet key l := rw.HeaderGet key l.w
  HeaderSet key value l := { l with w := rw.HeaderSet key value l.w }
  HeaderDel key l := { l with w := rw.HeaderDel key l.w }
  WriteHeader s l := { l with w := rw.WriteHeader s l.w, status := s }
  Write b l :=
    let r := rw.Write b l.w
    ({ l with w := r.1, size := l.size + r.2.1 }, r.2.1, r.2.2)
  ReadFrom := rw.ReadFrom.map fun readFrom src l =>
    let r := readFrom src l.w
    ({ l with w := r.1 }, r.2.1, r.2.2)

end handlers

/-- What a handler does besides calling the response writer. -/
inductive ServeEvent where
  /-- `os.Open` of a full name. -/
  | Open (name : String)
  /-- One `Write` of an access log line built from `params` on the stream `out`; `err` is
  the error that `Write` returned, if any. -/
  | LogWrite (out : Writer) (params : handlers.LogFormatterParams) (err : Option String)
  deriving DecidableEq, Repr

/-- `ServeHTTP` of a handler value, on any response writer: the state it leaves the
writer in and what else it did.  `logWrite` is what `Write` on a log stream returns for a
line, `some` being an error.  The logging handler runs the inner handler on the writer of
`makeLogger` (status 200, size 0), then has the formatter write one line; the value the
write returns is dropped. -/
def Handler.ServeHTTP (w : Files)
    (logWrite : Writer → handlers.LogFormatterParams → Option String) :
    Handler → (rw : http.ResponseWriter) → Request → rw.σ → rw.σ × List ServeEvent
  | .FileServer root, rw, r, s =>
    let served := http.fileHandler.ServeHTTP w root r
    (served.reply.prog.run rw s, served.opened.map .Open)
  | .CombinedLoggingHandler out h, rw, r, s =>
    let res := Handler.ServeHTTP w logWrite h (handlers.makeLogger rw) r ⟨s, 200, 0⟩
    let params : handlers.LogFormatterParams := ⟨r, res.1.status, res.1.size⟩
    (res.1.w, res.2 ++ [.LogWrite out params (logWrite out params)])

/-- The access log lines that reached their stream: the log writes that returned no
error. -/
def logLines : List ServeEvent → List (Writer × handlers.LogFormatterParams)
  | [] => []
  | .LogWrite out params none :: es => (out, params) :: logLines es
  | _ :: es => logLines es

/-! ## net/http: the serve mux -/

namespace http

/-- The serve mux: `m` holds every registration, `es` those whose pattern ends in '/',
longest pattern first. -/
structure ServeMux where
  m : List (String × Handler)
  es : List (String × Handler)
  deriving DecidableEq, Repr

/-- Inserts an entry before the first entry with a shorter pattern. -/
def appendSorted : List (String × Handler) → String × Handler → List (String × Handler)
  | [], e => [e]
  | x :: es, e => if x.1.length < e.1.length then e :: x :: es else x :: appendSorted es e

/-- `Handle`: registers the handler for the pattern; `none` stands for the panic on an
empty pattern or a pattern registered twice. -/
def ServeMux.Handle (mux : ServeMux) (pattern : String) (handler : Handler) :
    Option ServeMux :=
  if pattern == "" then none
  else if (mux.m.lookup pattern).isSome then none
  else some {
    m := (pattern, handler) :: mux.m
    es := if pattern.data.getLast? == some '/' then appendSorted mux.es (pattern, handler)
      else mux.es }

/-- The handler and pattern for a path: an exact match first, else the longest pattern
ending in '/' that the path starts with.  (`match` in net/http, a word Lean
reserves.) -/
def ServeMux.matchPath (mux : ServeMux) (path : String) : Option (Handler × String) :=
  match mux.m.lookup path with
  | some h => some (h, path)
  | none =>
    match mux.es.find? fun e => e.1.data.isPrefixOf path.data with
    | some e => some (e.2, e.1)
    | none => none

/-- The canonical path for `p`: rooted, cleaned, a trailing slash kept. -/
def cleanPath (p : String) : String :=
  if p == "" then "/"
  else
    let p := if p.data.head? != some '/' then "/" ++ p else p
    let np := path.Clean p
    -- path.Clean removes trailing slash except for root;
    -- put the trailing slash back if necessary.
    if p.data.getLast? == some '/' && np != "/" then
      if p.length == np.length + 1 && np.data.isPrefixOf p.data then p else np ++ "/"
    else np

/-- What the mux finds for a request: a registered handler with its pattern, its own
redirect handler `RedirectHandler(u.String(), code)` for `u = url.URL{Path, RawQuery}`, or
its not-found handler. -/
inductive Dispatch where
  | handler (h : Handler) (pattern : String)
  | RedirectHandler (path rawQuery : String) (code : Nat) (pattern : String)
  | NotFoundHandler
  deriving DecidableEq, Repr

/-- Whether `path` is to be redirected to `path + "/"`: it is not registered and
`path + "/"` is.  The host of the request is not represented: no pattern of this program
names a host. -/
def ServeMux.shouldRedirectRLocked (mux : ServeMux) (path : String) : Bool :=
  if (mux.m.lookup path).isSome then false
  else if path.length == 0 then false
  else if (mux.m.lookup (path ++ "/")).isSome then path.data.getLast? != some '/'
  else false

/-- The handler for a path, without the redirects: `match`, else the not-found
handler. -/
def ServeMux.handler (mux : ServeMux) (path : String) : Dispatch :=
  match mux.matchPath path with
  | some (h, pattern) => .handler h pattern
  | none => .NotFoundHandler

/-- The pattern a dispatch was found under. -/
def Dispatch.pattern : Dispatch → String
  | .handler _ pattern => pattern
  | .RedirectHandler _ _ _ pattern => pattern
  | .NotFoundHandler => ""

/-- `Handler`: the handler the mux uses for a request.  A CONNECT request is matched
as it is.  For every other request the path is cleaned first: when the cleaned path
differs from the request path the mux answers with its own redirect (301) to the cleaned
path, and the registered handler is not called. -/
def ServeMux.Handler (mux : ServeMux) (r : Request) : Dispatch :=
  if r.Method == "CONNECT" then
    if mux.shouldRedirectRLocked r.Path then
      .RedirectHandler (r.Path ++ "/") r.RawQuery 301 (r.Path ++ "/")
    else mux.handler r.Path
  else
    let path := cleanPath r.Path
    if mux.shouldRedirectRLocked path then
      .RedirectHandler (path ++ "/") r.RawQuery 301 (path ++ "/")
    else if path != r.Path then
      .RedirectHandler path r.RawQuery 301 (mux.handler path).pattern
    else mux.handler r.Path

end http

/-- The default serve mux after a sequence of calls of `main`. -/
def DefaultServeMux (events : List Event) : Option http.ServeMux :=
  events.foldl
    (fun mux e =>
      match e with
      | .Handle pattern handler => mux.bind fun m => m.Handle pattern handler
      | _ => mux)
    (some ⟨[], []⟩)

/-! ## Values used in the statements -/

/-- A world in which the listen call fails for every address. -/
def portInUse : World := ⟨fun _ => some "bind: address already in use"⟩

/-- A world in which the listen call succeeds for every address. -/
def portFree : World := ⟨fun _ => none⟩

/-- A file system that holds the directory "/srv/www" with one regular file, "a.txt", of
content "A", and an entry "private" that may not be opened; a regular file is served with
status 200 and its content as the body, a directory listing is empty. -/
def oneFile : Files where
  Open name :=
    if name = "/srv/www/a.txt" then .ok ⟨name, false, "A"⟩
    else if name = "/srv/www" then .ok ⟨name, true, ""⟩
    else if name = "/srv/www/private" then .error .ErrPermission
    else .error .ErrNotExist
  serveContent _ f := .Content [] 200 f.Data
  dirList _ _ := .Listing [] "<pre>\n</pre>\n"

/-- The server's writer behind the response logger, before anything was written. -/
def Fresh (l : handlers.responseLogger http.ResponseRecorder) : Prop :=
  l.w.wroteHeader = false ∧ l.w.Body = "" ∧ l.w.Code = 200 ∧ l.status = 200 ∧ l.size = 0

/-- An argument the flag parser rejects wherever it meets it as a flag: it starts with
'-' and is longer than that, it is not the terminator "--", and it is neither one of the
two options (alone or with "=value"), nor a request for help ("--help", "-h..."), nor a
"-test." argument. -/
def unknownFlag (u : String) : Bool :=
  match u.data with
  | c0 :: c1 :: rest =>
    if c0 != '-' then false
    else if c1 == '-' then
      rest != [] &&
        (let n := (pflag.splitN2 rest).1
         n != "webserverPort".data && n != "webserverDirectory".data && n != "help".data)
    else c1 != 'h' && !("test.".data.isPrefixOf (c1 :: rest))
  | _ => false

/-- The flag set `Parse` starts from, with any values `p` and `d` stored. -/
def stored (p d : String) : pflag.FlagSet :=
  ⟨[("webserverPort", p), ("webserverDirectory", d)], []⟩

/-- The flag names of the program are the names declared in `f`. -/
def Declared (f : pflag.FlagSet) : Prop :=
  f.formal.map Prod.fst = ["webserverPort", "webserverDirectory"]

/-! ## Lemmas on the flag parser -/

open pflag

theorem splitN2_eq (nm v : List Char) (h : '=' ∉ nm) :
    splitN2 (nm ++ '=' :: v) = (nm, some v) := by
  have hspan : ∀ (l acc : List Char), '=' ∉ l →
      List.span.loop (fun c => c != '=') (l ++ '=' :: v) acc = (acc.reverse ++ l, '=' :: v) := by
    intro l
    induction l with
    | nil => intro acc _; simp [List.span.loop]
    | cons c l ih =>
      intro acc hc
      have h1 : c ≠ '=' := fun e => hc (by simp [e])
      have h2 : '=' ∉ l := fun e => hc (by simp [e])
      have h1b : (c != '=') = true := by simp [h1]
      simp [List.span.loop, h1b, ih _ h2]
  simp [splitN2, List.span, hspan nm [] h]

theorem splitN2_none (nm : List Char) (h : '=' ∉ nm) : splitN2 nm = (nm, none) := by
  have hspan : ∀ (l acc : List Char), '=' ∉ l →
      List.span.loop (fun c => c != '=') l acc = (acc.reverse ++ l, []) := by
    intro l
    induction l with
    | nil => intro acc _; simp [List.span.loop]
    | cons c l ih =>
      intro acc hc
      have h1 : c ≠ '=' := fun e => hc (by simp [e])
      have h2 : '=' ∉ l := fun e => hc (by simp [e])
      have h1b : (c != '=') = true := by simp [h1]
      simp [List.span.loop, h1b, ih _ h2]
  simp [splitN2, List.span, hspan nm [] h]

/-- Unfolding of the argument loop at a long argument. -/
theorem parseArgs_long (f : FlagSet) (s : String) (args : List String) (c : Char)
    (n : List Char) (hs : s.data = '-' :: '-' :: c :: n) :
    f.parseArgs (s :: args) =
      match f.parseLongArg s args.head?, args with
      | .error e, _ => .error e
      | .ok (g, true), _ :: rest => g.parseArgs rest
      | .ok (g, _), a => g.parseArgs a := by
  conv_lhs => unfold FlagSet.parseArgs
  simp [String.length, hs]

theorem parseLongArg_eq (f : FlagSet) (s : String) (next : Option String) (c : Char)
    (nm v : List Char) (hs : s.data = '-' :: '-' :: c :: (nm ++ '=' :: v))
    (hc : c ≠ '-' ∧ c ≠ '=') (hnm : '=' ∉ nm) (x : String)
    (hf : f.lookup ⟨c :: nm⟩ = some x) :
    f.parseLongArg s next = .ok (f.Set ⟨c :: nm⟩ ⟨v⟩, false) := by
  have hsp : splitN2 (c :: (nm ++ '=' :: v)) = (c :: nm, some v) := by
    have := splitN2_eq (c :: nm) v (by simp [hnm, Ne.symm hc.2])
    simpa using this
  simp [FlagSet.parseLongArg, hs, hc.1, hc.2, hsp, hf]

theorem parseLongArg_sp (f : FlagSet) (s : String) (value : String) (c : Char)
    (nm : List Char) (hs : s.data = '-' :: '-' :: c :: nm)
    (hc : c ≠ '-' ∧ c ≠ '=') (hnm : '=' ∉ nm) (x : String)
    (hf : f.lookup ⟨c :: nm⟩ = some x) :
    f.parseLongArg s (some value) = .ok (f.Set ⟨c :: nm⟩ value, true) := by
  have hsp : splitN2 (c :: nm) = (c :: nm, none) :=
    splitN2_none (c :: nm) (by simp [hnm, Ne.symm hc.2])
  simp [FlagSet.parseLongArg, hs, hc.1, hc.2, hsp, hf]

theorem parseArgs_eq (f : FlagSet) (name value : String) (args : List String) (c : Char)
    (nm : List Char) (hname : name.data = c :: nm) (hc : c ≠ '-' ∧ c ≠ '=') (hnm : '=' ∉ nm)
    (x : String) (hf : f.lookup name = some x) :
    f.parseArgs (("--" ++ name ++ "=" ++ value) :: args) = (f.Set name value).parseArgs args := by
  have hs : ("--" ++ name ++ "=" ++ value).data =
      '-' :: '-' :: c :: (nm ++ '=' :: value.data) := by
    simp [String.data_append, hname]
  have hn : name = ⟨c :: nm⟩ := by rw [← hname]
  rw [parseArgs_long f _ args c _ hs, parseLongArg_eq f _ _ c nm _ hs hc hnm x (hn ▸ hf)]
  simp [← hn]

theorem parseArgs_sp (f : FlagSet) (name value : String) (args : List String) (c : Char)
    (nm : List Char) (hname : name.data = c :: nm) (hc : c ≠ '-' ∧ c ≠ '=') (hnm : '=' ∉ nm)
    (x : String) (hf : f.lookup name = some x) :
    f.parseArgs (("--" ++ name) :: value :: args) = (f.Set name value).parseArgs args := by
  have hs : ("--" ++ name).data = '-' :: '-' :: c :: nm := by
    simp [String.data_append, hname]
  have hn : name = ⟨c :: nm⟩ := by rw [← hname]
  rw [parseArgs_long f _ _ c _ hs]
  simp only [List.head?_cons]
  rw [parseLongArg_sp f _ value c nm hs hc hnm x (hn ▸ hf)]
  simp [← hn]

theorem stored_Set_port (p d q : String) :
    (stored p d).Set "webserverPort" q = stored q d := by
  simp [stored, FlagSet.Set]

theorem stored_Set_dir (p d q : String) :
    (stored p d).Set "webserverDirectory" q = stored p q := by
  simp [stored, FlagSet.Set]

theorem parse_eq_stored (args : List String) :
    CommandLine.Parse args = (stored "8080" ".").parseArgs args := rfl

theorem stored_port_eq (p d q : String) (args : List String) :
    (stored p d).parseArgs (("--webserverPort=" ++ q) :: args) = (stored q d).parseArgs args := by
  have h := parseArgs_eq (stored p d) "webserverPort" q args 'w' "ebserverPort".data rfl
    (by decide) (by decide) p (by simp [stored, FlagSet.lookup, List.lookup])
  rw [stored_Set_port] at h
  rw [← h]
  rfl

theorem stored_dir_eq (p d q : String) (args : List String) :
    (stored p d).parseArgs (("--webserverDirectory=" ++ q) :: args) =
      (stored p q).parseArgs args := by
  have h := parseArgs_eq (stored p d) "webserverDirectory" q args 'w' "ebserverDirectory".data
    rfl (by decide) (by decide) d (by simp [stored, FlagSet.lookup, List.lookup])
  rw [stored_Set_dir] at h
  rw [← h]
  rfl

theorem stored_port_sp (p d q : String) (args : List String) :
    (stored p d).parseArgs ("--webserverPort" :: q :: args) = (stored q d).parseArgs args := by
  have h := parseArgs_sp (stored p d) "webserverPort" q args 'w' "ebserverPort".data rfl
    (by decide) (by decide) p (by simp [stored, FlagSet.lookup, List.lookup])
  rw [stored_Set_port] at h
  rw [← h]
  rfl

theorem stored_dir_sp (p d q : String) (args : List String) :
    (stored p d).parseArgs ("--webserverDirectory" :: q :: args) =
      (stored p q).parseArgs args := by
  have h := parseArgs_sp (stored p d) "webserverDirectory" q args 'w' "ebserverDirectory".data
    rfl (by decide) (by decide) d (by simp [stored, FlagSet.lookup, List.lookup])
  rw [stored_Set_dir] at h
  rw [← h]
  rfl

theorem configOf_stored (p d : String) (args : List String)
    (h : CommandLine.Parse args = .ok (stored p d)) : configOf args = .ok (p, d) := by
  simp [configOf, h, Except.map, stored, FlagSet.value, FlagSet.lookup, List.lookup]

theorem stored_nil (p d : String) : (stored p d).parseArgs [] = .ok (stored p d) := by
  simp [FlagSet.parseArgs]

/-- The calls of a run whose parse succeeded, and its two possible ends. -/
theorem main_of_config (w : World) (args : List String) (p d : String)
    (h : configOf args = .ok (p, d)) :
    (main w args).events =
      [.Info ["Go Webserver listening on tcp port", p],
       .Handle "/" (.CombinedLoggingHandler .Stdout (.FileServer d)),
       .ListenAndServe (":" ++ p) none] ∧
    (main w args).outcome =
      match w.listenAndServe (":" ++ p) with
      | some _ => .exit 0
      | none => .serving := by
  unfold configOf at h
  unfold main
  cases hp : CommandLine.Parse args with
  | error e => rw [hp] at h; simp [Except.map] at h
  | ok f =>
    rw [hp] at h
    simp only [Except.map, Except.ok.injEq, Prod.mk.injEq] at h
    obtain ⟨h1, h2⟩ := h
    simp only [h1, h2]
    cases w.listenAndServe (":" ++ p) <;> simp

theorem Declared.Set {f : FlagSet} (h : Declared f) (n v : String) : Declared (f.Set n v) := by
  unfold Declared FlagSet.Set at *
  rw [← h]
  simp only [List.map_map]
  apply List.map_congr_left
  intro a _
  simp only [Function.comp]
  split <;> rfl

theorem Declared.lookup_none {f : FlagSet} (h : Declared f) (n : String)
    (h1 : n ≠ "webserverPort") (h2 : n ≠ "webserverDirectory") : f.lookup n = none := by
  unfold Declared at h
  unfold FlagSet.lookup
  rw [List.lookup_eq_none_iff]
  intro a ha
  have : a.1 ∈ f.formal.map Prod.fst := List.mem_map_of_mem _ ha
  rw [h] at this
  simp at this
  rcases this with h | h <;> simp [h, h1, h2]

theorem parseLongArg_ok {f : FlagSet} {s : String} {next : Option String} {g : FlagSet}
    {b : Bool} (h : f.parseLongArg s next = .ok (g, b)) :
    (∃ n v, g = f.Set n v) ∧
      ((b = false ∧ ∀ nx, f.parseLongArg s nx = .ok (g, false)) ∨
        (b = true ∧ ∃ v, next = some v)) := by
  unfold FlagSet.parseLongArg at h ⊢
  simp only at h ⊢
  split at h
  · simp at h
  · rename_i hc
    simp only [hc]
    cases hl : f.lookup ⟨(splitN2 (List.drop 2 s.data)).1⟩ with
    | none => rw [hl] at h; simp only at h; split at h <;> simp at h
    | some x =>
      rw [hl] at h
      simp only at h
      cases h2 : (splitN2 (List.drop 2 s.data)).2 with
      | some value =>
        rw [h2] at h
        simp only [Except.ok.injEq, Prod.mk.injEq] at h
        obtain ⟨hg, hb⟩ := h
        exact ⟨⟨_, _, hg.symm⟩, Or.inl ⟨hb.symm, fun nx => by simp [hg]⟩⟩
      | none =>
        rw [h2] at h
        cases next with
        | none => simp at h
        | some v =>
          simp only [Except.ok.injEq, Prod.mk.injEq] at h
          obtain ⟨hg, hb⟩ := h
          exact ⟨⟨_, _, hg.symm⟩, Or.inr ⟨hb.symm, v, rfl⟩⟩

theorem unknown_rejected (f : FlagSet) (hf : Declared f) (u : String)
    (hu : unknownFlag u = true) (post : List String) :
    ∃ e, e ≠ ParseError.ErrHelp ∧ f.parseArgs (u :: post) = .error e := by
  unfold unknownFlag at hu
  split at hu
  · rename_i c0 c1 rest hd
    by_cases h0 : c0 = '-'
    · subst h0
      by_cases h1 : c1 = '-'
      · subst h1
        simp only [bne_self_eq_false, Bool.false_eq_true, ↓reduceIte, beq_self_eq_true,
          Bool.and_eq_true, bne_iff_ne, ne_eq] at hu
        obtain ⟨hr, ⟨hp, hd2⟩, hh⟩ := hu
        cases rest with
        | nil => exact absurd rfl hr
        | cons c n =>
          rw [parseArgs_long f u post c n hd]
          have key : ∃ e, e ≠ ParseError.ErrHelp ∧
              f.parseLongArg u post.head? = .error e := by
            unfold FlagSet.parseLongArg
            simp only [hd, List.drop_succ_cons, List.drop_zero]
            split
            · exact ⟨_, by simp, rfl⟩
            · have hl : f.lookup ⟨(splitN2 (c :: n)).1⟩ = none := by
                apply hf.lookup_none
                · intro e; exact hp (congrArg String.data e)
                · intro e; exact hd2 (congrArg String.data e)
              simp only [hl]
              have : (⟨(splitN2 (c :: n)).1⟩ : String) ≠ "help" := by
                intro e; exact hh (congrArg String.data e)
              simp only [this, ↓reduceIte]
              exact ⟨_, by simp, rfl⟩
          obtain ⟨e, he, hk⟩ := key
          exact ⟨e, he, by rw [hk]⟩
      · have h1b : (c1 == '-') = false := by simp [h1]
        simp only [bne_self_eq_false, Bool.false_eq_true, ↓reduceIte, h1b,
          Bool.and_eq_true, bne_iff_ne, ne_eq, Bool.not_eq_true'] at hu
        obtain ⟨hh, ht⟩ := hu
        refine ⟨.unknownShorthand c1 ⟨c1 :: rest⟩, by simp, ?_⟩
        unfold FlagSet.parseArgs
        simp [String.length, hd, h1, FlagSet.parseShortArg, ht, hh]
    · simp [h0] at hu
  · simp at hu

/-- Arguments that parse on their own and hold no terminator leave the parser at the
argument that follows them: an unknown flag there is an error. -/
theorem parseArgs_unknown (u : String) (hu : unknownFlag u = true) (post : List String) :
    ∀ (n : Nat) (pre : List String) (f : FlagSet), pre.length ≤ n → Declared f →
      "--" ∉ pre → (∃ g, f.parseArgs pre = .ok g) →
      ∃ e, e ≠ ParseError.ErrHelp ∧ f.parseArgs (pre ++ u :: post) = .error e := by
  intro n
  induction n with
  | zero =>
    intro pre f hlen hf _ _
    have : pre = [] := List.eq_nil_of_length_eq_zero (Nat.le_zero.mp hlen)
    subst this
    exact unknown_rejected f hf u hu post
  | succ n ih =>
    intro pre f hlen hf hterm hok
    cases pre with
    | nil => exact unknown_rejected f hf u hu post
    | cons s args =>
      have hlen1 : args.length ≤ n := by simpa using hlen
      have hterm1 : "--" ∉ args := fun h => hterm (List.mem_cons_of_mem _ h)
      have hs : s ≠ "--" := fun h => hterm (by simp [h])
      obtain ⟨g, hg⟩ := hok
      rw [List.cons_append]
      unfold FlagSet.parseArgs at hg ⊢
      split at hg
      · rename_i hc
        rw [if_pos hc]
        exact ih args _ hlen1 hf hterm1 ⟨g, hg⟩
      · rename_i hc
        rw [if_neg hc]
        split at hg
        · rename_i hc2
          rw [if_pos hc2]
          split at hg
          · rename_i hc3
            exfalso
            apply hs
            simp only [Bool.or_eq_true, beq_iff_eq, bne_iff_ne, ne_eq, not_or, not_not] at hc
            simp only [beq_iff_eq] at hc2 hc3
            obtain ⟨sd⟩ := s
            simp only [String.length] at hc3
            match sd, hc3, hc, hc2 with
            | [a, b], _, hc, hc2 =>
              simp at hc hc2
              rw [hc, hc2]
          · rename_i hc3
            rw [if_neg hc3]
            cases hl : f.parseLongArg s args.head? with
            | error e => rw [hl] at hg; simp at hg
            | ok r =>
              obtain ⟨g1, b⟩ := r
              obtain ⟨⟨nm, v, hset⟩, hb⟩ := parseLongArg_ok hl
              have hdg : Declared g1 := hset ▸ hf.Set nm v
              rcases hb with ⟨hb, hall⟩ | ⟨hb, v1, hv1⟩
              · subst hb
                rw [hl] at hg
                simp only at hg
                rw [hall]
                simp only
                exact ih args g1 hlen1 hdg hterm1 ⟨g, hg⟩
              · subst hb
                cases args with
                | nil => simp at hv1
                | cons a rest =>
                  rw [hl] at hg
                  simp only at hg
                  simp only [List.cons_append, List.head?_cons] at hl ⊢
                  rw [hl]
                  simp only
                  have hlen2 : rest.length ≤ n := by
                    simp at hlen1; omega
                  exact ih rest g1 hlen2 hdg
                    (fun h => hterm1 (List.mem_cons_of_mem _ h)) ⟨g, hg⟩
        · rename_i hc2
          rw [if_neg hc2]
          cases hl : f.parseShortArg s with
          | error e => rw [hl] at hg; simp at hg
          | ok g1 =>
            rw [hl] at hg
            simp only at hg ⊢
            have : g1 = f := by
              unfold FlagSet.parseShortArg at hl
              simp only at hl
              split at hl
              · simpa using hl.symm
              · split at hl
                · simpa using hl.symm
                · split at hl <;> simp at hl
            subst this
            exact ih args _ hlen1 hf hterm1 ⟨g, hg⟩


/-! ## Lemmas on path cleaning -/

namespace path

theorem length_dropWhile_le (p : Char → Bool) (l : List Char) :
    (l.dropWhile p).length ≤ l.length := by
  induction l with
  | nil => simp
  | cons a l ih =>
    simp only [List.dropWhile]
    split
    · simp; omega
    · simp

/-- More fuel than bytes changes nothing. -/
theorem cleanLoop_fuel (rooted : Bool) :
    ∀ (f g : Nat) (rest out : List Char) (dd : Nat), rest.length ≤ f → rest.length ≤ g →
      cleanLoop rooted f rest out dd = cleanLoop rooted g rest out dd := by
  intro f
  induction f with
  | zero =>
    intro g rest out dd hf _
    have : rest = [] := List.eq_nil_of_length_eq_zero (Nat.le_zero.mp hf)
    subst this
    cases g <;> rfl
  | succ f ih =>
    intro g rest out dd hf hg
    cases rest with
    | nil => cases g <;> rfl
    | cons c tl =>
      cases g with
      | zero => simp at hg
      | succ g =>
        have h1 : tl.length ≤ f := by simpa using hf
        have h2 : tl.length ≤ g := by simpa using hg
        have h3 : tl.tail.length ≤ f := by simp; omega
        have h4 : tl.tail.length ≤ g := by simp; omega
        have h5 := length_dropWhile_le (fun b => b != '/') tl
        simp only [cleanLoop]
        rw [ih g tl out dd h1 h2, ih g tl.tail _ dd h3 h4, ih g tl.tail _ _ h3 h4,
          ih g tl.tail out dd h3 h4, ih g (tl.dropWhile fun b => b != '/') _ dd
            (by omega) (by omega)]


theorem cleanRun_nil (rooted : Bool) (out : List Char) (dd : Nat) :
    cleanRun rooted [] out dd = some (out, dd) := by
  simp [cleanRun, cleanLoop]

theorem cleanRun_cons (rooted : Bool) (c : Char) (tl out : List Char) (dd : Nat) :
    cleanRun rooted (c :: tl) out dd =
      if c == '/' then cleanRun rooted tl out dd
      else if c == '.' && (tl.isEmpty || tl.head? == some '/') then cleanRun rooted tl out dd
      else if c == '.' && tl.head? == some '.' &&
          (tl.tail.isEmpty || tl.tail.head? == some '/') then
        if out.length > dd then cleanRun rooted tl.tail (backtrack out dd) dd
        else if !rooted then
          cleanRun rooted tl.tail ('.' :: '.' :: (if out.length > 0 then '/' :: out else out))
            ('.' :: '.' :: (if out.length > 0 then '/' :: out else out)).length
        else cleanRun rooted tl.tail out dd
      else
        cleanRun rooted (tl.dropWhile fun b => b != '/')
          ((tl.takeWhile fun b => b != '/').reverse ++ c ::
            (if rooted && out.length != 1 || !rooted && out.length != 0 then '/' :: out
              else out)) dd := by
  have h3 : tl.tail.length ≤ tl.length := by simp
  have h5 := length_dropWhile_le (fun b => b != '/') tl
  simp only [cleanRun, List.length_cons, cleanLoop]
  rw [cleanLoop_fuel rooted tl.length tl.tail.length tl.tail _ dd h3 le_rfl,
    cleanLoop_fuel rooted tl.length tl.tail.length tl.tail _ _ h3 le_rfl,
    cleanLoop_fuel rooted tl.length tl.tail.length tl.tail out dd h3 le_rfl,
    cleanLoop_fuel rooted tl.length _ (tl.dropWhile fun b => b != '/') _ dd h5 le_rfl]


theorem plain_iff (e : List Char) :
    plain e = true ↔ e ≠ [] ∧ '/' ∉ e ∧ e ≠ ['.'] ∧ e ≠ ['.', '.'] := by
  simp [plain, and_assoc]

theorem backtrack_last (l : List Char) (hl : ∀ c ∈ l, c ≠ '/') (hne : l ≠ []) :
    backtrack (l ++ ['/']) 1 = ['/'] := by
  induction l with
  | nil => exact absurd rfl hne
  | cons c l ih =>
    have hc : c ≠ '/' := hl c (by simp)
    cases l with
    | nil => simp [backtrack]
    | cons d l =>
      have := ih (fun x hx => hl x (by simp [hx])) (by simp)
      simp only [List.cons_append, backtrack] at this ⊢
      simp [hc]
      simpa using this

theorem backtrack_more (l rest : List Char) (hl : ∀ c ∈ l, c ≠ '/') (hne : rest ≠ []) :
    backtrack (l ++ '/' :: rest) 1 = rest := by
  induction l with
  | nil => simp [backtrack]
  | cons c l ih =>
    have hc : c ≠ '/' := hl c (by simp)
    have := ih (fun x hx => hl x (by simp [hx]))
    simp only [List.cons_append, backtrack]
    have hlen : (l ++ '/' :: rest).length > 1 := by
      cases rest with
      | nil => exact absurd rfl hne
      | cons a r => simp; omega
    rw [if_pos (by simp [hc]; simpa using hlen)]
    exact this

theorem stack_ne_nil (es : List (List Char)) : stack es ≠ [] := by
  cases es with
  | nil => simp [stack]
  | cons e es =>
    simp only [stack]
    split <;> simp

theorem backtrack_stack (e : List Char) (es : List (List Char)) (he : plain e = true) :
    backtrack (stack (e :: es)) 1 = stack es := by
  rw [plain_iff] at he
  have hl : ∀ c ∈ e.reverse, c ≠ '/' := by
    intro c hc h
    apply he.2.1
    rw [← h]
    simpa using hc
  cases es with
  | nil =>
    simp only [stack, List.isEmpty_nil, ↓reduceIte]
    exact backtrack_last _ hl (by simpa using he.1)
  | cons d ds =>
    simp only [stack, List.isEmpty_cons, Bool.false_eq_true, ↓reduceIte]
    exact backtrack_more _ _ hl (by
      have := stack_ne_nil (d :: ds)
      simpa [stack] using this)

theorem stack_length (es : List (List Char)) (h : ∀ e ∈ es, plain e = true) :
    (stack es).length = 1 ↔ es = [] := by
  cases es with
  | nil => simp [stack]
  | cons e es =>
    have he := (plain_iff e).1 (h e (by simp))
    have : e.length ≠ 0 := by
      intro h0
      exact he.1 (List.eq_nil_of_length_eq_zero h0)
    have hpos : 0 < e.length := Nat.pos_of_ne_zero this
    simp only [stack]
    split
    · simp only [List.length_append, List.length_reverse, List.length_singleton]
      constructor
      · intro h; omega
      · intro h; simp at h
    · simp only [List.length_append, List.length_reverse, List.length_cons]
      constructor
      · intro h; omega
      · intro h; simp at h

theorem takeWhile_nil_iff (l : List Char) :
    (l.takeWhile fun b => b != '/') = [] ↔ (l.isEmpty || l.head? == some '/') = true := by
  cases l with
  | nil => simp
  | cons a l =>
    by_cases h : a = '/' <;> simp [List.takeWhile_cons, h]

/-- The element copied in the last branch of the loop is a plain segment. -/
theorem element_plain (c : Char) (tl : List Char) (h1 : (c == '/') = false)
    (h2 : (c == '.' && (tl.isEmpty || tl.head? == some '/')) = false)
    (h3 : (c == '.' && tl.head? == some '.' &&
      (tl.tail.isEmpty || tl.tail.head? == some '/')) = false) :
    plain (c :: tl.takeWhile fun b => b != '/') = true := by
  rw [plain_iff]
  have hc : c ≠ '/' := by simpa using h1
  refine ⟨by simp, ?_, ?_, ?_⟩
  · intro hmem
    rcases List.mem_cons.1 hmem with h | h
    · exact hc h.symm
    · have := List.mem_takeWhile_imp h
      simp at this
  · intro h
    simp only [List.cons.injEq] at h
    obtain ⟨hc1, ht⟩ := h
    rw [takeWhile_nil_iff] at ht
    simp [hc1, ht] at h2
  · intro h
    simp only [List.cons.injEq] at h
    obtain ⟨hc1, ht⟩ := h
    cases tl with
    | nil => simp at ht
    | cons a t =>
      by_cases ha : a = '/'
      · simp [List.takeWhile_cons, ha] at ht
      · simp only [List.takeWhile_cons, bne_iff_ne, ne_eq, ha, not_false_eq_true, decide_True,
          ↓reduceIte, List.cons.injEq] at ht
        obtain ⟨ha1, ht1⟩ := ht
        rw [takeWhile_nil_iff] at ht1
        simp [hc1, ha1, ht1] at h3

/-- The loop on a rooted path keeps the buffer a rooted path of plain segments. -/
theorem cleanRun_rooted :
    ∀ (n : Nat) (rest : List Char) (es : List (List Char)), rest.length ≤ n →
      (∀ e ∈ es, plain e = true) →
      ∃ es2, (∀ e ∈ es2, plain e = true) ∧
        cleanRun true rest (stack es) 1 = some (stack es2, 1) := by
  intro n
  induction n with
  | zero =>
    intro rest es hlen hes
    have : rest = [] := List.eq_nil_of_length_eq_zero (Nat.le_zero.mp hlen)
    subst this
    exact ⟨es, hes, cleanRun_nil _ _ _⟩
  | succ n ih =>
    intro rest es hlen hes
    cases rest with
    | nil => exact ⟨es, hes, cleanRun_nil _ _ _⟩
    | cons c tl =>
      have h1 : tl.length ≤ n := by simpa using hlen
      have h3 : tl.tail.length ≤ n := by simp; omega
      have h5 : (tl.dropWhile fun b => b != '/').length ≤ n :=
        le_trans (length_dropWhile_le _ tl) h1
      rw [cleanRun_cons]
      split
      · exact ih tl es h1 hes
      · split
        · exact ih tl es h1 hes
        · split
          · split
            · rename_i hlen2
              cases es with
              | nil => simp [stack] at hlen2
              | cons e es1 =>
                rw [backtrack_stack e es1 (hes e (by simp))]
                exact ih tl.tail es1 h3 (fun x hx => hes x (by simp [hx]))
            · simp only [Bool.not_true, Bool.false_eq_true, ↓reduceIte]
              exact ih tl.tail es h3 hes
          · rename_i hc1 hc2 hc3
            have hp := element_plain c tl (by simpa using hc1) (by simpa using hc2)
              (by simpa using hc3)
            have hst : ((tl.takeWhile fun b => b != '/').reverse ++ c ::
                (if (true && (stack es).length != 1 || !true && (stack es).length != 0) = true
                  then '/' :: stack es else stack es)) =
                stack ((c :: tl.takeWhile fun b => b != '/') :: es) := by
              cases es with
              | nil => simp [stack]
              | cons e es1 =>
                have hl : (stack (e :: es1)).length ≠ 1 := by
                  rw [Ne, stack_length _ hes]
                  simp
                simp [stack, hl]
                simpa [stack] using hl
            rw [hst]
            exact ih _ _ h5 (by
              intro x hx
              rcases List.mem_cons.1 hx with h | h
              · rw [h]; exact hp
              · exact hes x h)


theorem slashed_append (a b : List (List Char)) : slashed (a ++ b) = slashed a ++ slashed b := by
  simp [slashed]

theorem stack_reverse (es : List (List Char)) : (stack es).reverse = rootedOf es.reverse := by
  induction es with
  | nil => rfl
  | cons e es ih =>
    cases es with
    | nil => simp [stack, rootedOf, slashed]
    | cons d ds =>
      simp only [stack, List.isEmpty_cons, Bool.false_eq_true, ↓reduceIte] at ih ⊢
      simp only [List.reverse_append, List.reverse_cons, List.reverse_reverse] at ih ⊢
      rw [ih]
      simp [rootedOf, slashed]

/-- Cleaning a rooted path gives a rooted path of plain segments. -/
theorem cleanChars_rooted (p : List Char) :
    ∃ segs, (∀ e ∈ segs, plain e = true) ∧ cleanChars ('/' :: p) = rootedOf segs := by
  obtain ⟨es, hes, h⟩ := cleanRun_rooted p.length p [] le_rfl (by simp)
  refine ⟨es.reverse, by simpa using hes, ?_⟩
  simp only [cleanRun, stack] at h
  simp only [cleanChars, beq_self_eq_true, ↓reduceIte, h]
  have : (stack es).length ≠ 0 := by
    intro h0
    exact stack_ne_nil es (List.eq_nil_of_length_eq_zero h0)
  simp [this, stack_reverse]

theorem cleanRun_some (rooted : Bool) :
    ∀ (n : Nat) (rest out : List Char) (dd : Nat), rest.length ≤ n →
      ∃ st, cleanRun rooted rest out dd = some st := by
  intro n
  induction n with
  | zero =>
    intro rest out dd hlen
    have : rest = [] := List.eq_nil_of_length_eq_zero (Nat.le_zero.mp hlen)
    subst this
    exact ⟨_, cleanRun_nil _ _ _⟩
  | succ n ih =>
    intro rest out dd hlen
    cases rest with
    | nil => exact ⟨_, cleanRun_nil _ _ _⟩
    | cons c tl =>
      have h1 : tl.length ≤ n := by simpa using hlen
      have h3 : tl.tail.length ≤ n := by simp; omega
      have h5 : (tl.dropWhile fun b => b != '/').length ≤ n :=
        le_trans (length_dropWhile_le _ tl) h1
      rw [cleanRun_cons]
      split
      · exact ih _ _ _ h1
      · split
        · exact ih _ _ _ h1
        · split
          · split
            · exact ih _ _ _ h3
            · split
              · exact ih _ _ _ h3
              · exact ih _ _ _ h3
          · exact ih _ _ _ h5

theorem takeWhile_append_slash (tl ys : List Char) :
    (tl ++ '/' :: ys).takeWhile (fun b => b != '/') = tl.takeWhile fun b => b != '/' := by
  induction tl with
  | nil => simp [List.takeWhile_cons]
  | cons a tl ih =>
    by_cases h : a = '/' <;> simp [List.takeWhile_cons, h, ih]

theorem dropWhile_append_slash (tl ys : List Char) :
    (tl ++ '/' :: ys).dropWhile (fun b => b != '/') =
      (tl.dropWhile fun b => b != '/') ++ '/' :: ys := by
  induction tl with
  | nil => simp [List.dropWhile_cons]
  | cons a tl ih =>
    by_cases h : a = '/' <;> simp [List.dropWhile_cons, h, ih]

/-- The loop reads a '/' as it reads the end of the input: on `xs` followed by '/' and
more, it goes on after `xs` from the state in which it ends on `xs` alone. -/
theorem cleanRun_append (rooted : Bool) (ys : List Char) :
    ∀ (n : Nat) (xs out : List Char) (dd : Nat), xs.length ≤ n →
      cleanRun rooted (xs ++ '/' :: ys) out dd =
        (cleanRun rooted xs out dd).bind fun st => cleanRun rooted ('/' :: ys) st.1 st.2 := by
  intro n
  induction n with
  | zero =>
    intro xs out dd hlen
    have : xs = [] := List.eq_nil_of_length_eq_zero (Nat.le_zero.mp hlen)
    subst this
    simp [cleanRun_nil]
  | succ n ih =>
    intro xs out dd hlen
    cases xs with
    | nil => simp [cleanRun_nil]
    | cons c tl =>
      have h1 : tl.length ≤ n := by simpa using hlen
      have h3 : tl.tail.length ≤ n := by simp; omega
      have h5 : (tl.dropWhile fun b => b != '/').length ≤ n :=
        le_trans (length_dropWhile_le _ tl) h1
      have ha : ((tl ++ '/' :: ys).isEmpty || (tl ++ '/' :: ys).head? == some '/') =
          (tl.isEmpty || tl.head? == some '/') := by
        cases tl <;> simp
      have hb : ((tl ++ '/' :: ys).head? == some '.' &&
            ((tl ++ '/' :: ys).tail.isEmpty || (tl ++ '/' :: ys).tail.head? == some '/')) =
          (tl.head? == some '.' && (tl.tail.isEmpty || tl.tail.head? == some '/')) := by
        cases tl with
        | nil => simp
        | cons a t => cases t <;> simp
      rw [List.cons_append, cleanRun_cons, cleanRun_cons rooted c tl]
      simp only [ha, Bool.and_assoc, hb, takeWhile_append_slash, dropWhile_append_slash]
      split
      · exact ih _ _ _ h1
      · split
        · exact ih _ _ _ h1
        · split
          · rename_i hc
            have hne : tl ≠ [] := by
              intro h
              simp [h] at hc
            have ht : (tl ++ '/' :: ys).tail = tl.tail ++ '/' :: ys := by
              cases tl with
              | nil => exact absurd rfl hne
              | cons a t => rfl
            rw [ht]
            split
            · exact ih _ _ _ h3
            · split
              · exact ih _ _ _ h3
              · exact ih _ _ _ h3
          · exact ih _ _ _ h5


/-- The loop on one plain segment copies it. -/
theorem cleanRun_plain (rooted : Bool) (e out : List Char) (dd : Nat) (he : plain e = true) :
    cleanRun rooted e out dd = some (push rooted out e, dd) := by
  rw [plain_iff] at he
  obtain ⟨hne, hsl, hd, hdd⟩ := he
  cases e with
  | nil => exact absurd rfl hne
  | cons c t =>
    have hc : c ≠ '/' := fun h => hsl (by simp [h])
    have ht : ∀ b ∈ t, (b != '/') = true := by
      intro b hb
      simp only [bne_iff_ne, ne_eq]
      intro h
      exact hsl (List.mem_cons_of_mem _ (h ▸ hb))
    have htw : (t.takeWhile fun b => b != '/') = t := List.takeWhile_eq_self_iff.2 ht
    have hdw : (t.dropWhile fun b => b != '/') = [] := List.dropWhile_eq_nil_iff.2 ht
    have h2 : (c == '.' && (t.isEmpty || t.head? == some '/')) = false := by
      cases t with
      | nil =>
        simp only [List.isEmpty_nil, Bool.true_or, Bool.and_true, beq_eq_false_iff_ne, ne_eq]
        intro h
        exact hd (by rw [h])
      | cons a t1 =>
        have : a ≠ '/' := by simpa using ht a (by simp)
        simp [this]
    have h3 : (c == '.' && t.head? == some '.' &&
        (t.tail.isEmpty || t.tail.head? == some '/')) = false := by
      cases t with
      | nil => simp
      | cons a t1 =>
        cases t1 with
        | nil =>
          simp only [List.head?_cons, List.tail_cons, List.isEmpty_nil, Bool.true_or,
            Bool.and_true, Bool.and_eq_false_imp, beq_iff_eq, beq_eq_false_iff_ne, ne_eq]
          intro h1 h2
          simp only [Option.some.injEq] at h2
          exact hdd (by rw [h1, h2])
        | cons b t2 =>
          have : b ≠ '/' := by simpa using ht b (by simp)
          simp [this]
    rw [cleanRun_cons]
    simp only [beq_eq_false_iff_ne.2 hc, Bool.false_eq_true, ↓reduceIte, h2, h3, htw, hdw,
      cleanRun_nil]
    simp [push]

/-- The loop on "/e1/.../en", plain segments, copies them one after the other. -/
theorem cleanRun_slashed (rooted : Bool) :
    ∀ (segs : List (List Char)) (out : List Char) (dd : Nat), (∀ e ∈ segs, plain e = true) →
      cleanRun rooted (slashed segs) out dd = some (segs.foldl (push rooted) out, dd) := by
  intro segs
  induction segs with
  | nil => intro out dd _; simp [slashed, cleanRun_nil]
  | cons e es ih =>
    intro out dd h
    have he := h e (by simp)
    have hes : ∀ x ∈ es, plain x = true := fun x hx => h x (by simp [hx])
    have hsl : slashed (e :: es) = '/' :: (e ++ slashed es) := by simp [slashed]
    rw [hsl, cleanRun_cons]
    simp only [beq_self_eq_true, ↓reduceIte, List.foldl_cons]
    cases es with
    | nil => simp [slashed, cleanRun_plain rooted e out dd he]
    | cons d ds =>
      have hsl2 : slashed (d :: ds) = '/' :: (d ++ slashed ds) := by simp [slashed]
      rw [hsl2, cleanRun_append rooted _ e.length e out dd le_rfl,
        cleanRun_plain rooted e out dd he]
      simp only [Option.some_bind]
      rw [← hsl2]
      exact ih _ _ hes

theorem foldl_push_rooted (segs es : List (List Char)) (hes : ∀ e ∈ es, plain e = true)
    (hsegs : ∀ e ∈ segs, plain e = true) :
    segs.foldl (push true) (stack es) = stack (segs.reverse ++ es) := by
  induction segs generalizing es with
  | nil => rfl
  | cons e segs ih =>
    have he := hsegs e (by simp)
    have h1 : push true (stack es) e = stack (e :: es) := by
      cases es with
      | nil => simp [push, stack]
      | cons d ds =>
        have hl : (stack (d :: ds)).length ≠ 1 := by
          rw [Ne, stack_length _ hes]
          simp
        simp [push, stack, hl]
        simpa [stack] using hl
    simp only [List.foldl_cons, h1]
    rw [ih (e :: es) (by
      intro x hx
      rcases List.mem_cons.1 hx with h | h
      · rw [h]; exact he
      · exact hes x h) (fun x hx => hsegs x (by simp [hx]))]
    simp

theorem foldl_push_unrooted (segs : List (List Char)) (out : List Char) (hout : out ≠ []) :
    (segs.foldl (push false) out).reverse = out.reverse ++ slashed segs ∧
      segs.foldl (push false) out ≠ [] := by
  induction segs generalizing out with
  | nil => simp [slashed, hout]
  | cons e segs ih =>
    have hl : out.length ≠ 0 := fun h => hout (List.eq_nil_of_length_eq_zero h)
    have h1 : push false out e = e.reverse ++ '/' :: out := by simp [push, hl]
    have h2 : e.reverse ++ '/' :: out ≠ [] := by simp
    simp only [List.foldl_cons, h1]
    obtain ⟨ha, hb⟩ := ih _ h2
    refine ⟨?_, hb⟩
    rw [ha]
    simp [slashed]


theorem cleanRun_rootedOf (rooted : Bool) (segs : List (List Char)) (out : List Char)
    (dd : Nat) (h : ∀ e ∈ segs, plain e = true) :
    cleanRun rooted (rootedOf segs) out dd = some (segs.foldl (push rooted) out, dd) := by
  cases segs with
  | nil => simp [rootedOf, cleanRun_cons, cleanRun_nil]
  | cons e es => simpa [rootedOf] using cleanRun_slashed rooted (e :: es) out dd h

/-- Cleaning `dir`, a '/' and a rooted path of plain segments gives a name under the
cleaned `dir`. -/
theorem cleanChars_join (dir : List Char) (hdir : dir ≠ []) (segs : List (List Char))
    (hsegs : ∀ e ∈ segs, plain e = true) :
    Under (cleanChars dir) (cleanChars (dir ++ '/' :: rootedOf segs)) := by
  cases dir with
  | nil => exact absurd rfl hdir
  | cons c0 dtl =>
    by_cases hc : c0 = '/'
    · subst hc
      obtain ⟨es, hes, hD⟩ := cleanRun_rooted dtl.length dtl [] le_rfl (by simp)
      have hne : ∀ l : List (List Char), ((stack l).length == 0) = false := by
        intro l
        rw [beq_eq_false_iff_ne]
        intro h0
        exact stack_ne_nil l (List.eq_nil_of_length_eq_zero h0)
      have hbase : cleanChars ('/' :: dtl) = rootedOf es.reverse := by
        simp only [cleanRun, stack] at hD
        simp only [cleanChars, beq_self_eq_true, ↓reduceIte, hD]
        simp [hne, stack_reverse]
      have hrun : cleanRun true (dtl ++ '/' :: rootedOf segs) ['/'] 1 =
          some (stack (segs.reverse ++ es), 1) := by
        have hD2 : cleanRun true dtl ['/'] 1 = some (stack es, 1) := by simpa [stack] using hD
        rw [cleanRun_append true _ dtl.length dtl _ _ le_rfl, hD2]
        simp only [Option.some_bind]
        rw [cleanRun_cons]
        simp only [beq_self_eq_true, ↓reduceIte]
        rw [cleanRun_rootedOf true segs _ _ hsegs, foldl_push_rooted segs es hes hsegs]
      have hfull : cleanChars ('/' :: dtl ++ '/' :: rootedOf segs) =
          rootedOf (es.reverse ++ segs) := by
        simp only [cleanRun] at hrun
        simp only [List.cons_append, cleanChars, beq_self_eq_true, ↓reduceIte, hrun]
        simp [hne, stack_reverse]
      rw [hbase, hfull]
      refine ⟨segs, hsegs, ?_⟩
      by_cases hes0 : es = []
      · subst hes0
        by_cases hs0 : segs = []
        · subst hs0
          left
          simp [rootedOf, slashed]
        · right
          left
          refine ⟨hs0, by simp [rootedOf], ?_⟩
          simp [rootedOf, hs0]
      · left
        simp [rootedOf, hes0, slashed_append]
    · obtain ⟨⟨outD, ddD⟩, hD⟩ := cleanRun_some false (c0 :: dtl).length (c0 :: dtl) [] 0 le_rfl
      have hc1 : (c0 == '/') = false := by simpa using hc
      have hbase : cleanChars (c0 :: dtl) =
          if outD.length == 0 then ['.'] else outD.reverse := by
        simp only [cleanRun] at hD
        simp only [cleanChars, hc1, Bool.false_eq_true, ↓reduceIte, hD]
      have hrun : cleanRun false (c0 :: dtl ++ '/' :: rootedOf segs) [] 0 =
          some (segs.foldl (push false) outD, ddD) := by
        rw [cleanRun_append false _ (c0 :: dtl).length (c0 :: dtl) _ _ le_rfl, hD]
        simp only [Option.some_bind]
        rw [cleanRun_cons]
        simp only [beq_self_eq_true, ↓reduceIte]
        exact cleanRun_rootedOf false segs _ _ hsegs
      have hfull : cleanChars (c0 :: dtl ++ '/' :: rootedOf segs) =
          if (segs.foldl (push false) outD).length == 0 then ['.']
          else (segs.foldl (push false) outD).reverse := by
        simp only [cleanRun] at hrun
        simp only [List.cons_append, cleanChars, hc1, Bool.false_eq_true, ↓reduceIte]
        simp only [List.cons_append] at hrun
        rw [hrun]
      rw [hbase, hfull]
      refine ⟨segs, hsegs, ?_⟩
      cases segs with
      | nil =>
        left
        simp [slashed]
      | cons e es =>
        by_cases hout : outD = []
        · subst hout
          right
          right
          have he := (plain_iff e).1 (hsegs e (by simp))
          have h1 : push false [] e = e.reverse := by simp [push]
          have h2 : e.reverse ≠ [] := by simpa using he.1
          obtain ⟨ha, hb⟩ := foldl_push_unrooted es e.reverse h2
          refine ⟨by simp, by simp, ?_⟩
          simp only [List.foldl_cons, h1]
          have hl : ((es.foldl (push false) e.reverse).length == 0) = false := by
            rw [beq_eq_false_iff_ne]
            intro h0
            exact hb (List.eq_nil_of_length_eq_zero h0)
          simp only [hl, Bool.false_eq_true, ↓reduceIte, ha]
          simp [slashed]
        · left
          obtain ⟨ha, hb⟩ := foldl_push_unrooted (e :: es) outD hout
          have hl : (((e :: es).foldl (push false) outD).length == 0) = false := by
            rw [beq_eq_false_iff_ne]
            intro h0
            exact hb (List.eq_nil_of_length_eq_zero h0)
          have hl2 : (outD.length == 0) = false := by
            rw [beq_eq_false_iff_ne]
            intro h0
            exact hout (List.eq_nil_of_length_eq_zero h0)
          simp only [hl, hl2, Bool.false_eq_true, ↓reduceIte, ha]

end path

/-! ## Lemmas on the handlers -/

theorem Copy_makeLogger (rw : http.ResponseWriter) (src : String)
    (l : (handlers.makeLogger rw).σ) :
    ((handlers.makeLogger rw).Copy src l).1.w = (rw.Copy src l.w).1 ∧
      ((handlers.makeLogger rw).Copy src l).2 = (rw.Copy src l.w).2 ∧
      ((handlers.makeLogger rw).Copy src l).1.status = l.status := by
  obtain ⟨σ, hg, hs, hd, wh, wr, rf⟩ := rw
  cases rf with
  | none => exact ⟨rfl, rfl, rfl⟩
  | some f => exact ⟨rfl, rfl, rfl⟩

theorem run_makeLogger (rw : http.ResponseWriter) (prog : http.Prog) :
    ∀ l : (handlers.makeLogger rw).σ,
      (prog.run (handlers.makeLogger rw) l).w = prog.run rw l.w := by
  induction prog with
  | done => intro l; rfl
  | HeaderGet key next ih => intro l; exact ih _ l
  | HeaderSet key value next ih => intro l; exact ih _
  | HeaderDel key next ih => intro l; exact ih _
  | WriteHeader statusCode next ih => intro l; exact ih _
  | Write b next ih => intro l; exact ih _ _ _
  | Copy src next ih =>
    intro l
    obtain ⟨h1, h2, _⟩ := Copy_makeLogger rw src l
    simp only [http.Prog.run]
    rw [ih, h1, h2]

theorem logLines_opens (names : List String) (es : List ServeEvent) :
    logLines (names.map ServeEvent.Open ++ es) = logLines es := by
  induction names with
  | nil => rfl
  | cons n ns ih => simpa [logLines] using ih

theorem not_under_example : ¬ path.Under "/srv/www".data "/etc/passwd".data := by
  rintro ⟨segs, _, h | ⟨_, h, _⟩ | ⟨_, h, _⟩⟩
  · have := congrArg (fun l => l.get? 1) h
    simp at this
  · simp at h
  · simp at h

/-- A handler leaves the writer wrapped by `makeLogger` as it leaves the writer itself,
whatever the log streams return. -/
theorem ServeHTTP_makeLogger (w : Files) (h : Handler) :
    ∀ (rw : http.ResponseWriter) (lw lw2 : Writer → handlers.LogFormatterParams → Option String)
      (r : Request) (l : (handlers.makeLogger rw).σ),
      (h.ServeHTTP w lw (handlers.makeLogger rw) r l).1.w = (h.ServeHTTP w lw2 rw r l.w).1 := by
  induction h with
  | FileServer root =>
    intro rw lw lw2 r l
    exact run_makeLogger rw _ l
  | CombinedLoggingHandler out h ih =>
    intro rw lw lw2 r l
    simp only [Handler.ServeHTTP]
    rw [ih (handlers.makeLogger rw) lw lw r ⟨l, 200, 0⟩]
    rw [ih rw lw lw2 r l, ih rw lw2 lw2 r ⟨l.w, 200, 0⟩]

/-- The full name the file handler opens for any name lies under the cleaned root. -/
theorem fullName_under (d name : String) :
    path.Under (path.Clean (if d == "" then "." else d)).data (http.Dir.fullName d name).data := by
  obtain ⟨segs, hsegs, hc⟩ := path.cleanChars_rooted name.data
  have hdir : (if d == "" then "." else d).data ≠ [] := by
    split
    · decide
    · rename_i h
      intro h0
      apply h
      simp only [beq_iff_eq]
      obtain ⟨dd⟩ := d
      simp only at h0
      rw [h0]
  have := path.cleanChars_join _ hdir segs hsegs
  simp only [http.Dir.fullName, filepath.Join, path.Clean, String.data_append]
  have h1 : ("/" : String).data = ['/'] := rfl
  simp only [h1, List.singleton_append, List.append_assoc]
  rw [hc]
  exact this

theorem serveFile_opened (w : Files) (r : Request) (root name : String) (redirect : Bool) :
    ∀ n ∈ (http.serveFile w r root name redirect).opened, ∃ x, n = http.Dir.fullName root x := by
  intro n hn
  unfold http.serveFile at hn
  simp only at hn
  split at hn
  · simp at hn
  · split at hn
    · simp only [List.mem_singleton] at hn
      exact ⟨_, hn⟩
    · split at hn
      · simp only [List.mem_singleton] at hn
        exact ⟨_, hn⟩
      · split at hn
        · simp only [List.mem_singleton] at hn
          exact ⟨_, hn⟩
        · split at hn
          · split at hn
            · simp only [List.mem_singleton] at hn
              exact ⟨_, hn⟩
            · split at hn
              · split at hn <;>
                · simp only [List.mem_cons, List.mem_singleton, List.not_mem_nil, or_false] at hn
                  rcases hn with h | h <;> exact ⟨_, h⟩
              · simp only [List.mem_cons, List.mem_singleton, List.not_mem_nil, or_false] at hn
                rcases hn with h | h <;> exact ⟨_, h⟩
          · simp only [List.mem_singleton] at hn
            exact ⟨_, hn⟩

theorem serveFile_error (w : Files) (r : Request) (root name : String) (redirect : Bool)
    (err : http.FsError) (hidx : "/index.html".data.isSuffixOf r.Path.data = false)
    (hopen : w.Open (http.Dir.fullName root name) = .error err) :
    ((http.serveFile w r root name redirect).reply.prog.run http.Recorder
      http.NewRecorder).Code = (http.toHTTPError err).2 := by
  unfold http.serveFile
  simp only [hidx, Bool.false_eq_true, ↓reduceIte, hopen]
  rfl

/-- Every reply of `serveFile` is a redirect, the error reply for the failed open of the
name it was given, or what `serveContent` or `dirList` give for a file it opened. -/
theorem serveFile_reply (w : Files) (r : Request) (root name : String) (redirect : Bool) :
    (∃ location, (http.serveFile w r root name redirect).reply = .Redirect location) ∨
    (∃ err, w.Open (http.Dir.fullName root name) = .error err ∧
      (http.serveFile w r root name redirect).reply =
        .Error (http.toHTTPError err).1 (http.toHTTPError err).2) ∨
    (∃ n ∈ (http.serveFile w r root name redirect).opened, ∃ f, w.Open n = .ok f ∧
      ((http.serveFile w r root name redirect).reply = w.serveContent r f ∨
        (http.serveFile w r root name redirect).reply = w.dirList r f)) := by
  unfold http.serveFile
  simp only
  split
  · exact Or.inl ⟨_, rfl⟩
  · cases hopen : w.Open (http.Dir.fullName root name) with
    | error err => exact Or.inr (Or.inl ⟨err, rfl, rfl⟩)
    | ok d =>
      simp only
      split
      · exact Or.inl ⟨_, rfl⟩
      · split
        · exact Or.inl ⟨_, rfl⟩
        · split
          · split
            · exact Or.inl ⟨_, rfl⟩
            · cases hidx : w.Open (http.Dir.fullName root
                  (http.trimSlash name ++ "/index.html")) with
              | error e =>
                exact Or.inr (Or.inr ⟨_, by simp, d, hopen, Or.inr rfl⟩)
              | ok dd =>
                simp only
                split
                · exact Or.inr (Or.inr ⟨_, by simp, dd, hidx, Or.inr rfl⟩)
                · exact Or.inr (Or.inr ⟨_, by simp, dd, hidx, Or.inl rfl⟩)
          · exact Or.inr (Or.inr ⟨_, by simp, d, hopen, Or.inl rfl⟩)

/-! ## Lemmas on the serve mux -/

theorem cleanChars_rooted_head (p : List Char) :
    ∃ tl, path.cleanChars ('/' :: p) = '/' :: tl := by
  obtain ⟨segs, _, h⟩ := path.cleanChars_rooted p
  rw [h]
  cases segs with
  | nil => exact ⟨[], rfl⟩
  | cons e es => exact ⟨e ++ path.slashed es, by simp [path.rootedOf, path.slashed]⟩

/-- The canonical path starts with '/'. -/
theorem cleanPath_head (p : String) : ∃ tl, (http.cleanPath p).data = '/' :: tl := by
  have hp : ∃ tl, (if p.data.head? != some '/' then "/" ++ p else p).data = '/' :: tl := by
    split
    · exact ⟨p.data, rfl⟩
    · rename_i h
      obtain ⟨pd⟩ := p
      cases pd with
      | nil => simp at h
      | cons c tl =>
        simp only [List.head?_cons, bne_iff_ne, ne_eq, Option.some.injEq, not_not] at h
        exact ⟨tl, by rw [h]⟩
  unfold http.cleanPath
  split
  · exact ⟨[], rfl⟩
  · simp only
    generalize (if p.data.head? != some '/' then "/" ++ p else p) = q at hp
    obtain ⟨tl, htl⟩ := hp
    have hnp : ∃ t2, (path.Clean q).data = '/' :: t2 := by
      simp only [path.Clean, htl]
      exact cleanChars_rooted_head tl
    obtain ⟨t2, ht2⟩ := hnp
    split
    · split
      · exact ⟨tl, htl⟩
      · exact ⟨t2 ++ ['/'], by simp [String.data_append, ht2]⟩
    · exact ⟨t2, ht2⟩

/-- The mux that holds the one registration for "/" finds that handler, under "/", for
every path that starts with '/', and never redirects such a path to a trailing slash. -/
theorem root_mux (h : Handler) (path : String) (tl : List Char) (hp : path.data = '/' :: tl) :
    (⟨[("/", h)], [("/", h)]⟩ : http.ServeMux).handler path = .handler h "/" ∧
      (⟨[("/", h)], [("/", h)]⟩ : http.ServeMux).shouldRedirectRLocked path = false := by
  obtain ⟨pd⟩ := path
  simp only at hp
  subst hp
  by_cases htl : tl = []
  · subst htl
    exact ⟨rfl, rfl⟩
  · have hne : ((⟨'/' :: tl⟩ : String) == "/") = false := by
      rw [beq_eq_false_iff_ne]
      intro h
      have := congrArg String.data h
      simp at this
      exact htl this
    have hne2 : ((⟨'/' :: tl⟩ : String) ++ "/" == "/") = false := by
      rw [beq_eq_false_iff_ne]
      intro h
      have := congrArg String.data h
      simp [String.data_append] at this
    constructor
    · unfold http.ServeMux.handler http.ServeMux.matchPath
      simp only [List.lookup, hne]
      simp [List.find?, List.isPrefixOf]
    · unfold http.ServeMux.shouldRedirectRLocked
      simp [List.lookup, hne, hne2, String.length]

theorem run_setHeader (header : List (String × String)) (next : http.Prog) :
    ∀ l : handlers.responseLogger http.ResponseRecorder, Fresh l →
      ∃ l2, Fresh l2 ∧
        (http.setHeader header next).run (handlers.makeLogger http.response) l =
          next.run (handlers.makeLogger http.response) l2 := by
  induction header with
  | nil => intro l hl; exact ⟨l, hl, rfl⟩
  | cons e header ih =>
    intro l hl
    obtain ⟨key, value⟩ := e
    exact ih _ hl

/-- What the response logger holds after a reply on the server's writer: the status of
the response, and as size the size of its body, except for the content of a file, which
goes through `ReadFrom` and is not counted. -/
theorem reply_logged (reply : http.Reply) :
    (reply.prog.run (handlers.makeLogger http.response) ⟨http.NewRecorder, 200, 0⟩).status =
        (reply.prog.run (handlers.makeLogger http.response) ⟨http.NewRecorder, 200, 0⟩).w.Code ∧
      (reply.prog.run (handlers.makeLogger http.response) ⟨http.NewRecorder, 200, 0⟩).size =
        match reply with
        | .Content _ _ _ => 0
        | _ => (reply.prog.run (handlers.makeLogger http.response)
            ⟨http.NewRecorder, 200, 0⟩).w.Body.utf8ByteSize := by
  have hfresh : Fresh ⟨http.NewRecorder, 200, 0⟩ := ⟨rfl, rfl, rfl, rfl, rfl⟩
  cases reply with
  | Redirect location => exact ⟨rfl, rfl⟩
  | Error error code =>
    refine ⟨rfl, ?_⟩
    simp [http.Reply.prog, http.Error, http.Prog.run, handlers.makeLogger,
      http.ResponseRecorder.Write, http.ResponseRecorder.WriteHeader, http.NewRecorder]
  | Status header code =>
    obtain ⟨l2, ⟨h1, h2, h3, h4, h5⟩, hrun⟩ :=
      run_setHeader header (.WriteHeader code .done) _ hfresh
    simp only [http.Reply.prog, hrun]
    simp [http.Prog.run, handlers.makeLogger, http.ResponseRecorder.WriteHeader, h1, h2, h5]
    rfl
  | Content header code content =>
    obtain ⟨l2, ⟨h1, h2, h3, h4, h5⟩, hrun⟩ :=
      run_setHeader header (.WriteHeader code (.Copy content fun _ _ => .done)) _ hfresh
    simp only [http.Reply.prog, hrun]
    simp [http.Prog.run, handlers.makeLogger, http.ResponseWriter.Copy,
      http.ResponseRecorder.Write, http.ResponseRecorder.WriteHeader, h1, h5]
  | Listing header body =>
    obtain ⟨l2, ⟨h1, h2, h3, h4, h5⟩, hrun⟩ :=
      run_setHeader header (.Write body fun _ _ => .done) _ hfresh
    simp only [http.Reply.prog, hrun]
    simp [http.Prog.run, handlers.makeLogger, http.ResponseRecorder.Write,
      http.ResponseRecorder.WriteHeader, h1, h2, h3, h4, h5]

/-! ## The claims -/

/-- C1, as the code has it: when argument parsing succeeds and the listen-and-serve call
returns an error (the bind failed), `main` drops the error: the call is the last thing the
run does, nothing is reported after it, and the process exits with status 0. -/
theorem bind_failure_exits_zero (w : World) (args : List String) (p d err : String)
    (hparse : configOf args = .ok (p, d))
    (hbind : w.listenAndServe (":" ++ p) = some err) :
    (main w args).outcome = .exit 0 ∧
      (main w args).events.getLast? = some (.ListenAndServe (":" ++ p) none) := by
  obtain ⟨he, ho⟩ := main_of_config w args p d hparse
  rw [he, ho, hbind]
  exact ⟨rfl, rfl⟩

/-- Witness of `bind_failure_exits_zero`: port 80 taken. -/
theorem bind_failure_exits_zero_witness :
    configOf ["--webserverPort", "80"] = .ok ("80", ".") ∧
    portInUse.listenAndServe (":" ++ "80") = some "bind: address already in use" ∧
    ((main portInUse ["--webserverPort", "80"]).outcome = .exit 0 ∧
      (main portInUse ["--webserverPort", "80"]).events.getLast? =
        some (.ListenAndServe (":" ++ "80") none)) :=
  ⟨rfl, rfl, bind_failure_exits_zero portInUse ["--webserverPort", "80"] "80" "."
    "bind: address already in use" rfl rfl⟩

/-- C1 fails as stated: with no arguments parsing succeeds, the bind of ":8080" fails, and
the process does not exit with a nonzero status: it exits with status 0, the failed call
being its last event. -/
theorem bind_failure_not_fatal :
    configOf [] = .ok ("8080", ".") ∧
    portInUse.listenAndServe ":8080" = some "bind: address already in use" ∧
    (¬ ∃ code, code ≠ 0 ∧ (main portInUse []).outcome = .exit code) ∧
    (main portInUse []).events.getLast? = some (.ListenAndServe ":8080" none) := by
  refine ⟨rfl, rfl, ?_, by decide⟩
  rintro ⟨code, hne, h⟩
  have : (main portInUse []).outcome = .exit 0 := by decide
  rw [this] at h
  exact hne (Outcome.exit.inj h).symm

/-- C2 fails as stated: with root "/srv/www" the request path "/../a.txt" has a ".."
segment and, joined to the root as written, names "/srv/a.txt" outside the root.  The
registered handler, when it is called with this path, answers with status 200 and the
content of "/srv/www/a.txt", the only name it opens; the default mux that `main` builds
does not call it for this GET request but answers itself, with a 301 redirect to
"/a.txt".  Neither status is 403 or 404. -/
theorem dotdot_path_served :
    path.Clean ("/srv/www" ++ "/../a.txt") = "/srv/a.txt" ∧
    ((Handler.CombinedLoggingHandler .Stdout (.FileServer "/srv/www")).ServeHTTP oneFile
      (fun _ _ => none) http.Recorder ⟨"GET", "/../a.txt", ""⟩ http.NewRecorder).1 =
      ⟨200, [], "A", true⟩ ∧
    (∀ name, ServeEvent.Open name ∈
        ((Handler.CombinedLoggingHandler .Stdout (.FileServer "/srv/www")).ServeHTTP oneFile
          (fun _ _ => none) http.Recorder ⟨"GET", "/../a.txt", ""⟩ http.NewRecorder).2 →
      name = "/srv/www/a.txt") ∧
    (DefaultServeMux (main portFree ["--webserverDirectory", "/srv/www"]).events).map
      (fun mux => mux.Handler ⟨"GET", "/../a.txt", ""⟩) =
      some (.RedirectHandler "/a.txt" "" 301 "/") ∧
    (200 ≠ 403 ∧ 200 ≠ 404 ∧ 301 ≠ 403 ∧ 301 ≠ 404) := by
  refine ⟨by decide, rfl, ?_, by decide, by decide⟩
  intro name h
  have h2 : ((Handler.CombinedLoggingHandler .Stdout (.FileServer "/srv/www")).ServeHTTP
      oneFile (fun _ _ => none) http.Recorder ⟨"GET", "/../a.txt", ""⟩ http.NewRecorder).2 =
      [.Open "/srv/www/a.txt",
       .LogWrite .Stdout ⟨⟨"GET", "/../a.txt", ""⟩, 200, 1⟩ none] := rfl
  rw [h2] at h
  simpa using h

/-- C2, as the code has it, for every root, file system and request.
(1) The mux that holds the one registration of `main` answers a request other than
CONNECT whose path is not its own cleaned form itself, with a 301 redirect to the cleaned
path, and hands a request whose path is clean to the registered handler.
(2) When the registered handler is called, with ".." segments in the path or without,
every name it opens lies under the cleaned root: the root followed by plain segments, none
of which is "..".
(3) Unless the path ends in "/index.html", when opening the root joined with the cleaned
path fails, the status is 404 if the name does not exist, 403 if permission is denied and
500 otherwise.
(4) What the handler sends is its reply run on the writer, and the reply is a redirect,
the error reply of (3), or what `serveContent` or the directory listing give for a file
opened under one of the names of (2). -/
theorem dotdot_path_stays_under_root (w : Files)
    (lw : Writer → handlers.LogFormatterParams → Option String) (out : Writer)
    (root : String) (r : Request) :
    (∃ mux, (⟨[], []⟩ : http.ServeMux).Handle "/"
          (.CombinedLoggingHandler out (.FileServer root)) = some mux ∧
        (r.Method ≠ "CONNECT" →
          mux.Handler r =
            if http.cleanPath r.Path != r.Path then
              .RedirectHandler (http.cleanPath r.Path) r.RawQuery 301 "/"
            else .handler (.CombinedLoggingHandler out (.FileServer root)) "/")) ∧
    (∀ name, ServeEvent.Open name ∈
        ((Handler.CombinedLoggingHandler out (.FileServer root)).ServeHTTP w lw
          http.Recorder r http.NewRecorder).2 →
      path.Under (path.Clean (if root == "" then "." else root)).data name.data) ∧
    ("/index.html".data.isSuffixOf (http.fileHandler.upath r).data = false →
      ∀ err, w.Open (http.Dir.fullName root (path.Clean (http.fileHandler.upath r))) =
          .error err →
        ((Handler.CombinedLoggingHandler out (.FileServer root)).ServeHTTP w lw
          http.Recorder r http.NewRecorder).1.Code =
          match err with
          | .ErrNotExist => 404
          | .ErrPermission => 403
          | .other => 500) ∧
    (((Handler.CombinedLoggingHandler out (.FileServer root)).ServeHTTP w lw
        http.Recorder r http.NewRecorder).1 =
        (http.fileHandler.ServeHTTP w root r).reply.prog.run http.Recorder http.NewRecorder ∧
      ((∃ location, (http.fileHandler.ServeHTTP w root r).reply = .Redirect location) ∨
        (∃ err, w.Open (http.Dir.fullName root (path.Clean (http.fileHandler.upath r))) =
            .error err ∧
          (http.fileHandler.ServeHTTP w root r).reply =
            .Error (http.toHTTPError err).1 (http.toHTTPError err).2) ∨
        (∃ name ∈ (http.fileHandler.ServeHTTP w root r).opened, ∃ f, w.Open name = .ok f ∧
          path.Under (path.Clean (if root == "" then "." else root)).data name.data ∧
          ((http.fileHandler.ServeHTTP w root r).reply =
              w.serveContent { r with Path := http.fileHandler.upath r } f ∨
            (http.fileHandler.ServeHTTP w root r).reply =
              w.dirList { r with Path := http.fileHandler.upath r } f)))) := by
  have hlog := ServeHTTP_makeLogger w (.FileServer root) http.Recorder lw lw r
    ⟨http.NewRecorder, 200, 0⟩
  refine ⟨⟨⟨[("/", .CombinedLoggingHandler out (.FileServer root))],
    [("/", .CombinedLoggingHandler out (.FileServer root))]⟩, ?_, ?_⟩, ?_, ?_, ?_, ?_⟩
  · simp [http.ServeMux.Handle, List.lookup, http.appendSorted]
  · intro hm
    obtain ⟨tl, htl⟩ := cleanPath_head r.Path
    obtain ⟨hh, hs⟩ := root_mux (.CombinedLoggingHandler out (.FileServer root))
      (http.cleanPath r.Path) tl htl
    have hm2 : (r.Method == "CONNECT") = false := by simpa using hm
    unfold http.ServeMux.Handler
    simp only [hm2, Bool.false_eq_true, ↓reduceIte, hs, hh, http.Dispatch.pattern]
    split
    · rfl
    · rename_i hne
      have heq : http.cleanPath r.Path = r.Path := by simpa using hne
      rw [← heq]
      exact hh
  · intro name hmem
    simp only [Handler.ServeHTTP, List.mem_append, List.mem_map, List.mem_singleton] at hmem
    rcases hmem with ⟨n, hn, hname⟩ | h
    · simp only [ServeEvent.Open.injEq] at hname
      subst hname
      obtain ⟨x, hx⟩ := serveFile_opened w _ root _ true n hn
      rw [hx]
      exact fullName_under root x
    · simp at h
  · intro hidx err hopen
    simp only [Handler.ServeHTTP] at hlog ⊢
    rw [hlog]
    have := serveFile_error w { r with Path := http.fileHandler.upath r } root
      (path.Clean (http.fileHandler.upath r)) true err hidx hopen
    simp only [http.fileHandler.ServeHTTP]
    rw [this]
    cases err <;> rfl
  · simp only [Handler.ServeHTTP] at hlog ⊢
    exact hlog
  · rcases serveFile_reply w { r with Path := http.fileHandler.upath r } root
      (path.Clean (http.fileHandler.upath r)) true with h | h | ⟨n, hn, f, hf, hr⟩
    · exact Or.inl h
    · exact Or.inr (Or.inl h)
    · refine Or.inr (Or.inr ⟨n, hn, f, hf, ?_, hr⟩)
      obtain ⟨x, hx⟩ := serveFile_opened w _ root _ true n hn
      rw [hx]
      exact fullName_under root x

/-- Witness of `dotdot_path_stays_under_root`: root "/srv/www", GET "/../../etc/passwd":
the mux redirects it to "/etc/passwd"; the handler, when called with it, opens
"/srv/www/etc/passwd" alone and answers 404. -/
theorem dotdot_path_stays_under_root_witness :
    (∃ mux, (⟨[], []⟩ : http.ServeMux).Handle "/"
          (.CombinedLoggingHandler .Stdout (.FileServer "/srv/www")) = some mux ∧
        mux.Handler ⟨"GET", "/../../etc/passwd", ""⟩ =
          .RedirectHandler "/etc/passwd" "" 301 "/") ∧
    path.Under (path.Clean "/srv/www").data "/srv/www/etc/passwd".data ∧
    ((Handler.CombinedLoggingHandler .Stdout (.FileServer "/srv/www")).ServeHTTP oneFile
      (fun _ _ => none) http.Recorder ⟨"GET", "/../../etc/passwd", ""⟩
      http.NewRecorder).1.Code = 404 :=
  ⟨(dotdot_path_stays_under_root oneFile (fun _ _ => none) .Stdout "/srv/www"
      ⟨"GET", "/../../etc/passwd", ""⟩).1.imp fun _ h => ⟨h.1, h.2 (by decide)⟩,
   (dotdot_path_stays_under_root oneFile (fun _ _ => none) .Stdout "/srv/www"
      ⟨"GET", "/../../etc/passwd", ""⟩).2.1 "/srv/www/etc/passwd" (by decide),
   (dotdot_path_stays_under_root oneFile (fun _ _ => none) .Stdout "/srv/www"
      ⟨"GET", "/../../etc/passwd", ""⟩).2.2.1 (by decide) .ErrNotExist rfl⟩

/-- C3: with no arguments the loader yields port "8080" and root directory "."; with
only the port option (either spelling) the directory is still "."; with only the directory
option the port is still "8080". -/
theorem defaults_and_single_option :
    configOf [] = .ok ("8080", ".") ∧
    (∀ p : String, configOf ["--webserverPort", p] = .ok (p, ".")) ∧
    (∀ p : String, configOf ["--webserverPort=" ++ p] = .ok (p, ".")) ∧
    (∀ d : String, configOf ["--webserverDirectory", d] = .ok ("8080", d)) ∧
    (∀ d : String, configOf ["--webserverDirectory=" ++ d] = .ok ("8080", d)) := by
  refine ⟨rfl, fun p => ?_, fun p => ?_, fun d => ?_, fun d => ?_⟩ <;>
    apply configOf_stored <;> rw [parse_eq_stored]
  · rw [stored_port_sp, stored_nil]
  · rw [stored_port_eq, stored_nil]
  · rw [stored_dir_sp, stored_nil]
  · rw [stored_dir_eq, stored_nil]

/-- C4: for all strings p and d, giving p as the value of --webserverPort and d as the
value of --webserverDirectory, as separate arguments or after "=", in either order, parses
without error and yields port p and directory d unchanged; `main` then goes on to its
three calls with exactly these values. -/
theorem both_options_any_strings (p d : String) :
    configOf ["--webserverPort", p, "--webserverDirectory", d] = .ok (p, d) ∧
    configOf ["--webserverPort=" ++ p, "--webserverDirectory=" ++ d] = .ok (p, d) ∧
    configOf ["--webserverDirectory", d, "--webserverPort", p] = .ok (p, d) ∧
    configOf ["--webserverDirectory=" ++ d, "--webserverPort=" ++ p] = .ok (p, d) ∧
    ∀ w : World, (main w ["--webserverPort", p, "--webserverDirectory", d]).events =
      [.Info ["Go Webserver listening on tcp port", p],
       .Handle "/" (.CombinedLoggingHandler .Stdout (.FileServer d)),
       .ListenAndServe (":" ++ p) none] := by
  have h1 : configOf ["--webserverPort", p, "--webserverDirectory", d] = .ok (p, d) := by
    apply configOf_stored
    rw [parse_eq_stored, stored_port_sp, stored_dir_sp, stored_nil]
  refine ⟨h1, ?_, ?_, ?_, fun w => (main_of_config w _ p d h1).1⟩ <;>
    apply configOf_stored <;> rw [parse_eq_stored]
  · rw [stored_port_eq, stored_dir_eq, stored_nil]
  · rw [stored_dir_sp, stored_port_sp, stored_nil]
  · rw [stored_dir_eq, stored_port_eq, stored_nil]

/-- C5 fails as stated: the stray word "stray" is neither an option nor the value of one,
yet the loader accepts the arguments with both defaults, a handler is registered and the
server binds and serves. -/
theorem stray_word_accepted :
    configOf ["stray"] = .ok ("8080", ".") ∧
    main portFree ["stray"] =
      ⟨[.Info ["Go Webserver listening on tcp port", "8080"],
        .Handle "/" (.CombinedLoggingHandler .Stdout (.FileServer ".")),
        .ListenAndServe ":8080" none], .serving⟩ :=
  ⟨rfl, by decide⟩

/-- C5, as the code has it: when the arguments before an unknown flag parse on their own
and hold no "--" terminator, so that the parser reaches the unknown flag, the run consists
of one usage error and the process exits with status 2: no handler is registered and no
listen call is made.  (A word that is not a flag is kept as a non-flag argument and
ignored.) -/
theorem unknown_flag_rejected (w : World) (pre : List String) (u : String)
    (post : List String) (hpre : ∃ g, CommandLine.Parse pre = .ok g) (hterm : "--" ∉ pre)
    (hu : unknownFlag u = true) :
    ∃ e, main w (pre ++ u :: post) = ⟨[.usageError e], .exit 2⟩ := by
  have hd : Declared (stored "8080" ".") := rfl
  obtain ⟨e, he, hp⟩ :=
    parseArgs_unknown u hu post pre.length pre (stored "8080" ".") le_rfl hd hterm hpre
  refine ⟨e, ?_⟩
  unfold main
  rw [parse_eq_stored, hp]
  cases e <;> simp at he ⊢

/-- Witness of `unknown_flag_rejected`: the flag "--nope" after a port and a word. -/
theorem unknown_flag_rejected_witness :
    ∃ e, main portFree (["--webserverPort", "80", "x"] ++ "--nope" :: ["y"]) =
      ⟨[.usageError e], .exit 2⟩ :=
  unknown_flag_rejected portFree ["--webserverPort", "80", "x"] "--nope" ["y"]
    ⟨_, rfl⟩ (by decide) (by decide)

/-- C6: when parsing yields port p, the listen call of `main` is its last call, it is the
only listen call, its address is ":" followed by p (nothing stands before the colon), its
handler argument is nil, which selects the default serve mux, and that mux holds the
single registration for "/". -/
theorem listen_address (w : World) (args : List String) (p d : String)
    (hparse : configOf args = .ok (p, d)) :
    ∃ before, (main w args).events = before ++ [.ListenAndServe (":" ++ p) none] ∧
      (∀ addr handler, Event.ListenAndServe addr handler ∉ before) ∧
      (":" ++ p).data = ':' :: p.data ∧
      (DefaultServeMux before).map (fun mux => mux.m) =
        some [("/", .CombinedLoggingHandler .Stdout (.FileServer d))] := by
  refine ⟨[.Info ["Go Webserver listening on tcp port", p],
    .Handle "/" (.CombinedLoggingHandler .Stdout (.FileServer d))], ?_, ?_, ?_, ?_⟩
  · exact (main_of_config w args p d hparse).1
  · intro addr handler hmem
    simp at hmem
  · rfl
  · simp [DefaultServeMux, http.ServeMux.Handle, List.lookup]

/-- Witness of `listen_address`: port 81 and directory "/srv". -/
theorem listen_address_witness :
    ∃ before, (main portFree ["--webserverPort=81", "--webserverDirectory", "/srv"]).events =
        before ++ [.ListenAndServe (":" ++ "81") none] ∧
      (∀ addr handler, Event.ListenAndServe addr handler ∉ before) ∧
      (":" ++ "81").data = ':' :: "81".data ∧
      (DefaultServeMux before).map (fun mux => mux.m) =
        some [("/", .CombinedLoggingHandler .Stdout (.FileServer "/srv"))] :=
  listen_address portFree ["--webserverPort=81", "--webserverDirectory", "/srv"] "81" "/srv"
    rfl

/-- C7: when parsing yields directory d, the run registers exactly one handler, for the
pattern "/": the logging handler on standard output around the file handler with root d.
The default serve mux built from the run finds this handler, under the pattern "/", for
every request path (request paths start with '/'), so every request is served from the
same root d. -/
theorem root_fixed_at_startup (w : World) (args : List String) (p d : String)
    (hparse : configOf args = .ok (p, d)) :
    ∃ mux, DefaultServeMux (main w args).events = some mux ∧
      mux.m = [("/", .CombinedLoggingHandler .Stdout (.FileServer d))] ∧
      ∀ path : String, path.data.head? = some '/' →
        mux.matchPath path = some (.CombinedLoggingHandler .Stdout (.FileServer d), "/") := by
  rw [(main_of_config w args p d hparse).1]
  refine ⟨⟨[("/", .CombinedLoggingHandler .Stdout (.FileServer d))],
    [("/", .CombinedLoggingHandler .Stdout (.FileServer d))]⟩, ?_, rfl, ?_⟩
  · simp [DefaultServeMux, http.ServeMux.Handle, List.lookup, http.appendSorted]
  · intro path hpath
    obtain ⟨pd⟩ := path
    cases pd with
    | nil => simp at hpath
    | cons c tl =>
      simp only [List.head?_cons, Option.some.injEq] at hpath
      subst hpath
      unfold http.ServeMux.matchPath
      by_cases htl : tl = []
      · subst htl
        rfl
      · have hne : ((⟨'/' :: tl⟩ : String) == "/") = false := by
          rw [beq_eq_false_iff_ne]
          intro h
          have := congrArg String.data h
          simp at this
          exact htl this
        simp only [List.lookup, hne]
        simp [List.find?, List.isPrefixOf]

/-- Witness of `root_fixed_at_startup`: directory "/srv". -/
theorem root_fixed_at_startup_witness :
    ∃ mux, DefaultServeMux (main portFree ["--webserverDirectory", "/srv"]).events = some mux ∧
      mux.m = [("/", .CombinedLoggingHandler .Stdout (.FileServer "/srv"))] ∧
      ∀ path : String, path.data.head? = some '/' →
        mux.matchPath path =
          some (.CombinedLoggingHandler .Stdout (.FileServer "/srv"), "/") :=
  root_fixed_at_startup portFree ["--webserverDirectory", "/srv"] "8080" "/srv" rfl

/-- C8: for every request and every response writer, the logging handler leaves the
writer in the state in which the handler it wraps leaves it (same status, headers and
body), whatever the write of the log line returns, success or an error. -/
theorem logging_keeps_response (w : Files)
    (lw lw2 : Writer → handlers.LogFormatterParams → Option String) (out : Writer)
    (h : Handler) (rw : http.ResponseWriter) (r : Request) (s : rw.σ) :
    ((Handler.CombinedLoggingHandler out h).ServeHTTP w lw rw r s).1 =
      (h.ServeHTTP w lw2 rw r s).1 := by
  simp only [Handler.ServeHTTP]
  exact ServeHTTP_makeLogger w h rw lw lw2 r ⟨s, 200, 0⟩

/-- C9 fails as stated, in two ways, both for a request for "/a.txt" that the registered
handler answers with status 200 and the one byte "A" on the server's writer.  When the
write on standard output fails (the stream is closed), no access log line is written.
When it succeeds, the line carries size 0, not the size 1 of the response: the content
went through `ReadFrom`, which the response logger does not count. -/
theorem log_line_lost_or_short :
    ((Handler.CombinedLoggingHandler .Stdout (.FileServer "/srv/www")).ServeHTTP oneFile
      (fun _ _ => some "write /dev/stdout: file already closed") http.response
      ⟨"GET", "/a.txt", ""⟩ http.NewRecorder).1 = ⟨200, [], "A", true⟩ ∧
    logLines ((Handler.CombinedLoggingHandler .Stdout (.FileServer "/srv/www")).ServeHTTP oneFile
      (fun _ _ => some "write /dev/stdout: file already closed") http.response
      ⟨"GET", "/a.txt", ""⟩ http.NewRecorder).2 = [] ∧
    ((Handler.CombinedLoggingHandler .Stdout (.FileServer "/srv/www")).ServeHTTP oneFile
      (fun _ _ => none) http.response ⟨"GET", "/a.txt", ""⟩ http.NewRecorder).1 =
      ⟨200, [], "A", true⟩ ∧
    logLines ((Handler.CombinedLoggingHandler .Stdout (.FileServer "/srv/www")).ServeHTTP oneFile
      (fun _ _ => none) http.response ⟨"GET", "/a.txt", ""⟩ http.NewRecorder).2 =
      [(.Stdout, ⟨⟨"GET", "/a.txt", ""⟩, 200, 0⟩)] ∧
    ("A" : String).utf8ByteSize = 1 := by
  refine ⟨rfl, rfl, rfl, rfl, by decide⟩

/-- C9, as the code has it: whatever the arguments that parse, the handler `main`
registers, called with any request on the server's writer, makes exactly one write of an
access log line; the write is on standard output, it comes after everything the file
handler did, and the line is written when that write returns no error, otherwise no line
is written.  The line carries the request, the status code of the response, and as size
the size in bytes of the response body, except when the reply is the content of a file:
that content is copied through `ReadFrom`, which the response logger does not count,
and the line carries size 0. -/
theorem one_log_write_after_handler (wd : World) (args : List String) (p d : String)
    (hparse : configOf args = .ok (p, d)) :
    ∀ pattern handler, Event.Handle pattern handler ∈ (main wd args).events →
      ∀ (w : Files) (lw : Writer → handlers.LogFormatterParams → Option String)
        (r : Request),
        ∃ params : handlers.LogFormatterParams,
          (handler.ServeHTTP w lw http.response r http.NewRecorder).2 =
            (http.fileHandler.ServeHTTP w d r).opened.map ServeEvent.Open ++
              [.LogWrite .Stdout params (lw .Stdout params)] ∧
          logLines (handler.ServeHTTP w lw http.response r http.NewRecorder).2 =
            (if (lw .Stdout params).isNone then [(.Stdout, params)] else []) ∧
          params.Request = r ∧
          params.StatusCode =
            (handler.ServeHTTP w lw http.response r http.NewRecorder).1.Code ∧
          params.Size =
            match (http.fileHandler.ServeHTTP w d r).reply with
            | .Content _ _ _ => 0
            | _ => (handler.ServeHTTP w lw http.response r
                http.NewRecorder).1.Body.utf8ByteSize := by
  intro pattern handler hmem w lw r
  rw [(main_of_config wd args p d hparse).1] at hmem
  simp only [List.mem_cons, Event.Handle.injEq, List.mem_singleton, List.not_mem_nil,
    or_false, false_or, reduceCtorEq] at hmem
  obtain ⟨_, hh⟩ := hmem
  subst hh
  obtain ⟨hst, hsz⟩ := reply_logged (http.fileHandler.ServeHTTP w d r).reply
  refine ⟨⟨r, _, _⟩, rfl, ?_, rfl, hst, hsz⟩
  simp only [Handler.ServeHTTP]
  rw [logLines_opens]
  cases lw .Stdout _ <;> rfl

/-- Witness of `one_log_write_after_handler`: the default arguments, a request for
"/a.txt" under the root "." of a file system without it, and a log stream that takes the
line: status 404 and the 19 bytes of the error message. -/
theorem one_log_write_after_handler_witness :
    ∃ params : handlers.LogFormatterParams,
      ((Handler.CombinedLoggingHandler .Stdout (.FileServer ".")).ServeHTTP oneFile
        (fun _ _ => none) http.response ⟨"GET", "/a.txt", ""⟩ http.NewRecorder).2 =
        [.Open "a.txt", .LogWrite .Stdout params none] ∧
      logLines ((Handler.CombinedLoggingHandler .Stdout (.FileServer ".")).ServeHTTP oneFile
        (fun _ _ => none) http.response ⟨"GET", "/a.txt", ""⟩ http.NewRecorder).2 =
        [(.Stdout, params)] ∧
      params.Request = ⟨"GET", "/a.txt", ""⟩ ∧
      params.StatusCode = 404 ∧
      params.Size = 19 :=
  one_log_write_after_handler portFree [] "8080" "." rfl "/"
    (.CombinedLoggingHandler .Stdout (.FileServer ".")) (by decide) oneFile (fun _ _ => none)
    ⟨"GET", "/a.txt", ""⟩

/-- C10: when parsing yields port p, the first call of the run is the info message "Go
Webserver listening on tcp port" with p, no later call is an info message, and the
registration and the listen call come after it.  This holds whatever the listen call
does: when it fails the run has the same calls and ends with exit status 0. -/
theorem info_first_and_once (w : World) (args : List String) (p d : String)
    (hparse : configOf args = .ok (p, d)) :
    ∃ rest, (main w args).events =
        .Info ["Go Webserver listening on tcp port", p] :: rest ∧
      (∀ a, Event.Info a ∉ rest) ∧
      (∃ handler, Event.Handle "/" handler ∈ rest) ∧
      (∃ addr, Event.ListenAndServe addr none ∈ rest) ∧
      ((w.listenAndServe (":" ++ p)).isSome → (main w args).outcome = .exit 0) := by
  obtain ⟨he, ho⟩ := main_of_config w args p d hparse
  refine ⟨_, he, ?_, ⟨.CombinedLoggingHandler .Stdout (.FileServer d), by simp⟩,
    ⟨":" ++ p, by simp⟩, ?_⟩
  · intro a hmem
    simp at hmem
  · intro hsome
    rw [ho]
    cases hl : w.listenAndServe (":" ++ p) with
    | none => rw [hl] at hsome; simp at hsome
    | some e => rfl

/-- Witness of `info_first_and_once`: the default port, taken. -/
theorem info_first_and_once_witness :
    ∃ rest, (main portInUse []).events =
        .Info ["Go Webserver listening on tcp port", "8080"] :: rest ∧
      (∀ a, Event.Info a ∉ rest) ∧
      (∃ handler, Event.Handle "/" handler ∈ rest) ∧
      (∃ addr, Event.ListenAndServe addr none ∈ rest) ∧
      ((portInUse.listenAndServe (":" ++ "8080")).isSome →
        (main portInUse []).outcome = .exit 0) :=
  info_first_and_once portInUse [] "8080" "." rfl

end HttpFilesystem
